import Mathlib

/-!
Verification of the galette GAL assembler against its specification.

This file gives a shallow embedding, in Lean 4, of the parts of the
galette source that the claims under scrutiny concern:

* the chip catalog (src/chips.rs): per-chip parameters, OLMC row tables
  and bounds;
* the fuse state (src/gal.rs): the GAL structure, mode fuses, the
  pin-to-column tables, needs_flip, set_and, clear_rows and add_term;
* the V8 mode analysis (src/olmc.rs): get_mode_v8;
* equation-to-term translation (src/blueprint.rs): eqn_to_term;
* pin-table construction (src/parser.rs): extend_pin_map;
* the JEDEC writer (src/jedec_writer.rs): CheckSummer, FuseBuilder and
  make_jedec.

Machine integers are modelled as Nat with explicit reduction modulo
2 ^ 16 (respectively 2 ^ 32) exactly where the Rust code wraps.  Vectors
of fuses are modelled as functions Nat → Bool updated pointwise (the
Rust code writes in-bounds indices of a Vec<bool>; all theorems below
only concern in-bounds indices).  Fallible functions return Except.

The source uses Mode::Mode1/Mode2/Mode3 in one revision and
Mode::Simple/Complex/Registered in another for the same three V8 modes
(1 = Simple, 2 = Complex, 3 = Registered); this file uses the
named variants throughout.
-/

deriving instance DecidableEq for Except

namespace Galette

/-- Chip is the enum of the four supported GAL devices (src/chips.rs). -/
inductive Chip
  | GAL16V8
  | GAL20V8
  | GAL22V10
  | GAL20RA10
deriving DecidableEq

/-- Bounds encodes the range of rows that can be used to encode a
particular term (src/chips.rs). -/
structure Bounds where
  start_row : Nat
  max_row : Nat
  row_offset : Nat
deriving DecidableEq

/-- ChipData stores the per-chip-type parameters (src/chips.rs).  The
fields not needed by any claim (name, total_size) are omitted. -/
structure ChipData where
  num_pins : Nat
  num_rows : Nat
  num_cols : Nat
  min_olmc_pin : Nat
  max_olmc_pin : Nat
  olmc_map : List Nat

/-- Number of rows for each OLMC in the 22V10's fuse table (only 22V10
is non-uniform) — OLMC_SIZE_22V10 in src/chips.rs. -/
def OLMC_SIZE_22V10 : List Nat := [9, 11, 13, 15, 17, 17, 15, 13, 11, 9]

/-- Rows per OLMC for all other chips — OLMC_SIZE_DEFAULT in src/chips.rs. -/
def OLMC_SIZE_DEFAULT : Nat := 8

/-- Map from OLMC number to starting row, GAL16V8/GAL20V8 (src/chips.rs). -/
def OLMC_ROWS_XXV8 : List Nat := [56, 48, 40, 32, 24, 16, 8, 0]

/-- Map from OLMC number to starting row, GAL22V10 (src/chips.rs). -/
def OLMC_ROWS_22V10 : List Nat := [122, 111, 98, 83, 66, 49, 34, 21, 10, 1]

/-- Map from OLMC number to starting row, GAL20RA10 (src/chips.rs). -/
def OLMC_ROWS_20RA10 : List Nat := [72, 64, 56, 48, 40, 32, 24, 16, 8, 0]

/-- GAL16V8_DATA (src/chips.rs). -/
def GAL16V8_DATA : ChipData :=
  { num_pins := 20, num_rows := 64, num_cols := 32,
    min_olmc_pin := 12, max_olmc_pin := 19, olmc_map := OLMC_ROWS_XXV8 }

/-- GAL20V8_DATA (src/chips.rs). -/
def GAL20V8_DATA : ChipData :=
  { num_pins := 24, num_rows := 64, num_cols := 40,
    min_olmc_pin := 15, max_olmc_pin := 22, olmc_map := OLMC_ROWS_XXV8 }

/-- GAL22V10_DATA (src/chips.rs). -/
def GAL22V10_DATA : ChipData :=
  { num_pins := 24, num_rows := 132, num_cols := 44,
    min_olmc_pin := 14, max_olmc_pin := 23, olmc_map := OLMC_ROWS_22V10 }

/-- GAL20RA10_DATA (src/chips.rs). -/
def GAL20RA10_DATA : ChipData :=
  { num_pins := 24, num_rows := 80, num_cols := 40,
    min_olmc_pin := 14, max_olmc_pin := 23, olmc_map := OLMC_ROWS_20RA10 }

/-- Chip.get_chip_data (src/chips.rs). -/
def Chip.get_chip_data : Chip → ChipData
  | .GAL16V8 => GAL16V8_DATA
  | .GAL20V8 => GAL20V8_DATA
  | .GAL22V10 => GAL22V10_DATA
  | .GAL20RA10 => GAL20RA10_DATA

/-- Chip.num_pins (src/chips.rs). -/
def Chip.num_pins (c : Chip) : Nat := c.get_chip_data.num_pins

/-- Chip.num_rows (src/chips.rs). -/
def Chip.num_rows (c : Chip) : Nat := c.get_chip_data.num_rows

/-- Chip.num_cols (src/chips.rs). -/
def Chip.num_cols (c : Chip) : Nat := c.get_chip_data.num_cols

/-- Chip.pin_to_olmc (src/chips.rs): map a pin number to its OLMC
index, when the pin is backed by an OLMC. -/
def Chip.pin_to_olmc (c : Chip) (pin : Nat) : Option Nat :=
  let data := c.get_chip_data
  if data.min_olmc_pin ≤ pin ∧ pin ≤ data.max_olmc_pin then
    some (pin - data.min_olmc_pin)
  else
    none

/-- Chip.num_olmcs (src/chips.rs). -/
def Chip.num_olmcs (c : Chip) : Nat :=
  let data := c.get_chip_data
  data.max_olmc_pin - data.min_olmc_pin + 1

/-- Chip.start_row_for_olmc (src/chips.rs).  The Rust code indexes the
olmc_map slice (a panic when out of bounds); the theorems below only
apply it to in-range OLMC numbers, where getD agrees. -/
def Chip.start_row_for_olmc (c : Chip) (olmc_num : Nat) : Nat :=
  c.get_chip_data.olmc_map.getD olmc_num 0

/-- Chip.num_rows_for_olmc (src/chips.rs): only the 22V10 has
non-uniform-sized OLMCs.  Same remark about in-range indexing. -/
def Chip.num_rows_for_olmc (c : Chip) (olmc_num : Nat) : Nat :=
  if c = Chip.GAL22V10 then
    OLMC_SIZE_22V10.getD olmc_num 0
  else
    OLMC_SIZE_DEFAULT

/-- Chip.get_bounds (src/chips.rs). -/
def Chip.get_bounds (c : Chip) (olmc_num : Nat) : Bounds :=
  { start_row := c.start_row_for_olmc olmc_num,
    max_row := c.num_rows_for_olmc olmc_num,
    row_offset := 0 }

/-- ErrorCode (src/errors.rs), restricted to the codes the claims
touch.  Constructor fields follow the payloads of the revision of
errors.rs that declares them; codes used without payloads in
src/gal.rs and src/blueprint.rs are modelled without payloads. -/
inductive ErrorCode
  | BadAnalysis
  | NotAnInput1
  | NotAnInput13
  | NotAnInput111
  | NotAnInput113
  | NotAnInput1219
  | NotAnInput1522
  | BadPower
  | MoreThanOneProduct
  | TooManyProducts
  | InvertedPower
  | InvalidPowerPinName (pin : Nat) (name : String)
  | InvalidPowerPinLocation (pin : Nat) (name : String) (expected_pin : Nat)
  | RepeatedPinName (name : String)
  | ReservedPinName (name : String)
deriving DecidableEq

/-- Error (src/errors.rs): an error code together with the line number. -/
structure Error where
  code : ErrorCode
  line : Nat
deriving DecidableEq

/-- at_line (src/errors.rs): adapt an ErrorCode to an Error. -/
def at_line {α : Type} (line : Nat) : Except ErrorCode α → Except Error α
  | .ok v => .ok v
  | .error e => .error { code := e, line := line }

/-- Projection of the error branch of an Except value (for stating
facts about which error a computation produced without comparing the
success payload). -/
def error_of {ε α : Type} : Except ε α → Option ε
  | .error e => some e
  | .ok _ => none

/-- Pin (src/gal.rs): a potentially negated pin, by pin number. -/
structure Pin where
  pin : Nat
  neg : Bool
deriving DecidableEq

/-- Term (src/gal.rs): an OR of AND groups of pins, with the source
line number that produced it. -/
structure Term where
  line_num : Nat
  pins : List (List Pin)
deriving DecidableEq

/-- true_term (src/gal.rs): an empty row is always true. -/
def true_term (line_num : Nat) : Term :=
  { line_num := line_num, pins := [[]] }

/-- false_term (src/gal.rs): no rows is always false. -/
def false_term (line_num : Nat) : Term :=
  { line_num := line_num, pins := [] }

/-- Mode (src/gal.rs): the three GAL16V8/GAL20V8 operating modes. -/
inductive Mode
  | Simple
  | Complex
  | Registered
deriving DecidableEq

/-- GAL (src/gal.rs): the fuse state.  Only the fields read or written
by the claims are modelled; fuses and ac1 are modelled as functions
from index to bit. -/
structure GAL where
  chip : Chip
  fuses : Nat → Bool
  ac1 : Nat → Bool
  syn : Bool
  ac0 : Bool

/-- GAL.new (src/gal.rs): an empty fuse structure (all fuses intact). -/
def GAL.new (chip : Chip) : GAL :=
  { chip := chip, fuses := fun _ => true, ac1 := fun _ => false,
    syn := false, ac0 := false }

/-- GAL.set_mode (src/gal.rs): set the fuses associated with the mode
for GALxxV8s.  The Rust code asserts the chip is a V8; the theorems
carry that hypothesis. -/
def GAL.set_mode (g : GAL) (m : Mode) : GAL :=
  match m with
  | .Simple => { g with syn := true, ac0 := false }
  | .Complex => { g with syn := true, ac0 := true }
  | .Registered => { g with syn := false, ac0 := true }

/-- GAL.get_mode (src/gal.rs): retrieve the mode from the mode fuses.
The Rust code panics on syn = false, ac0 = false; that case is
unreachable in the claims below and is mapped to Simple. -/
def GAL.get_mode (g : GAL) : Mode :=
  match g.syn, g.ac0 with
  | true, false => .Simple
  | true, true => .Complex
  | false, true => .Registered
  | false, false => .Simple

/-- PIN_TO_COL_16_MODE1 (src/gal.rs). -/
def PIN_TO_COL_16_MODE1 : List (Except ErrorCode Nat) :=
  [.ok 2, .ok 0, .ok 4, .ok 8, .ok 12, .ok 16, .ok 20, .ok 24, .ok 28,
   .error .BadPower,
   .ok 30, .ok 26, .ok 22, .ok 18, .error .BadAnalysis, .error .BadAnalysis,
   .ok 14, .ok 10, .ok 6, .error .BadPower]

/-- PIN_TO_COL_16_MODE2 (src/gal.rs). -/
def PIN_TO_COL_16_MODE2 : List (Except ErrorCode Nat) :=
  [.ok 2, .ok 0, .ok 4, .ok 8, .ok 12, .ok 16, .ok 20, .ok 24, .ok 28,
   .error .BadPower,
   .ok 30, .error .NotAnInput1219, .ok 26, .ok 22, .ok 18, .ok 14, .ok 10,
   .ok 6, .error .NotAnInput1219, .error .BadPower]

/-- PIN_TO_COL_16_MODE3 (src/gal.rs). -/
def PIN_TO_COL_16_MODE3 : List (Except ErrorCode Nat) :=
  [.error .NotAnInput111, .ok 0, .ok 4, .ok 8, .ok 12, .ok 16, .ok 20,
   .ok 24, .ok 28, .error .BadPower,
   .error .NotAnInput111, .ok 30, .ok 26, .ok 22, .ok 18, .ok 14, .ok 10,
   .ok 6, .ok 2, .error .BadPower]

/-- PIN_TO_COL_20_MODE1 (src/gal.rs). -/
def PIN_TO_COL_20_MODE1 : List (Except ErrorCode Nat) :=
  [.ok 2, .ok 0, .ok 4, .ok 8, .ok 12, .ok 16, .ok 20, .ok 24, .ok 28,
   .ok 32, .ok 36, .error .BadPower,
   .ok 38, .ok 34, .ok 30, .ok 26, .ok 22, .error .BadAnalysis,
   .error .BadAnalysis, .ok 18, .ok 14, .ok 10, .ok 6, .error .BadPower]

/-- PIN_TO_COL_20_MODE2 (src/gal.rs). -/
def PIN_TO_COL_20_MODE2 : List (Except ErrorCode Nat) :=
  [.ok 2, .ok 0, .ok 4, .ok 8, .ok 12, .ok 16, .ok 20, .ok 24, .ok 28,
   .ok 32, .ok 36, .error .BadPower,
   .ok 38, .ok 34, .error .NotAnInput1522, .ok 30, .ok 26, .ok 22, .ok 18,
   .ok 14, .ok 10, .error .NotAnInput1522, .ok 6, .error .BadPower]

/-- PIN_TO_COL_20_MODE3 (src/gal.rs). -/
def PIN_TO_COL_20_MODE3 : List (Except ErrorCode Nat) :=
  [.error .NotAnInput113, .ok 0, .ok 4, .ok 8, .ok 12, .ok 16, .ok 20,
   .ok 24, .ok 28, .ok 32, .ok 36, .error .BadPower,
   .error .NotAnInput113, .ok 38, .ok 34, .ok 30, .ok 26, .ok 22, .ok 18,
   .ok 14, .ok 10, .ok 6, .ok 2, .error .BadPower]

/-- PIN_TO_COL_22V10 (src/gal.rs). -/
def PIN_TO_COL_22V10 : List (Except ErrorCode Nat) :=
  [.ok 0, .ok 4, .ok 8, .ok 12, .ok 16, .ok 20, .ok 24, .ok 28, .ok 32,
   .ok 36, .ok 40, .error .BadPower,
   .ok 42, .ok 38, .ok 34, .ok 30, .ok 26, .ok 22, .ok 18, .ok 14, .ok 10,
   .ok 6, .ok 2, .error .BadPower]

/-- PIN_TO_COL_20RA10 (src/gal.rs). -/
def PIN_TO_COL_20RA10 : List (Except ErrorCode Nat) :=
  [.error .NotAnInput1, .ok 0, .ok 4, .ok 8, .ok 12, .ok 16, .ok 20, .ok 24,
   .ok 28, .ok 32, .ok 36, .error .BadPower,
   .error .NotAnInput13, .ok 38, .ok 34, .ok 30, .ok 26, .ok 22, .ok 18,
   .ok 14, .ok 10, .ok 6, .ok 2, .error .BadPower]

/-- Table selection inside GAL.pin_to_column (src/gal.rs): the lookup
table depends on the chip, and for the V8s on the mode. -/
def GAL.column_lookup (g : GAL) : List (Except ErrorCode Nat) :=
  match g.chip with
  | .GAL16V8 =>
    match g.get_mode with
    | .Simple => PIN_TO_COL_16_MODE1
    | .Complex => PIN_TO_COL_16_MODE2
    | .Registered => PIN_TO_COL_16_MODE3
  | .GAL20V8 =>
    match g.get_mode with
    | .Simple => PIN_TO_COL_20_MODE1
    | .Complex => PIN_TO_COL_20_MODE2
    | .Registered => PIN_TO_COL_20_MODE3
  | .GAL22V10 => PIN_TO_COL_22V10
  | .GAL20RA10 => PIN_TO_COL_20RA10

/-- GAL.pin_to_column (src/gal.rs): map the input pin number to the
fuse column number.  The Rust code indexes the table at pin_num - 1 (a
panic out of bounds); getD's default is never reached for pin numbers
1..num_pins. -/
def GAL.pin_to_column (g : GAL) (pin_num : Nat) : Except ErrorCode Nat :=
  g.column_lookup.getD (pin_num - 1) (.error .BadAnalysis)

/-- GAL.needs_flip (src/gal.rs): the special-case test for registered
outputs on the GAL22V10. -/
def GAL.needs_flip (g : GAL) (pin_num : Nat) : Bool :=
  if g.chip ≠ Chip.GAL22V10 then
    false
  else
    match g.chip.pin_to_olmc pin_num with
    | some i => !(g.ac1 (g.chip.num_olmcs - 1 - i))
    | none => false

/-- GAL.set_and (src/gal.rs): add an AND term to a fuse map — clear the
fuse at row * num_cols + column + neg_off. -/
def GAL.set_and (g : GAL) (row : Nat) (pin_num : Nat) (negation : Bool) :
    Except ErrorCode GAL :=
  let row_len := g.chip.num_cols
  match g.pin_to_column pin_num with
  | .error e => .error e
  | .ok column =>
    let neg_off := if negation then 1 else 0
    .ok { g with
          fuses := fun j =>
            if j = row * row_len + column + neg_off then false
            else g.fuses j }

/-- GAL.clear_rows (src/gal.rs): clear out a set of rows, so they don't
contribute to the term. -/
def GAL.clear_rows (g : GAL) (bounds : Bounds) : GAL :=
  let num_cols := g.chip.num_cols
  { g with
    fuses := fun j =>
      if (bounds.start_row + bounds.row_offset) * num_cols ≤ j ∧
          j < (bounds.start_row + bounds.max_row) * num_cols then
        false
      else
        g.fuses j }

/-- Inner loop of GAL.add_term (src/gal.rs) over the inputs of one
product group: for each input, compute the 22V10 flip and call set_and
on the current row. -/
def GAL.set_and_row (g : GAL) (line_num : Nat) (row : Nat) :
    List Pin → Except Error GAL
  | [] => .ok g
  | input :: rest =>
    let flip := g.needs_flip input.pin
    match at_line line_num (g.set_and row input.pin (input.neg ^^ flip)) with
    | .error e => .error e
    | .ok g' => g'.set_and_row line_num row rest

/-- Outer loop of GAL.add_term (src/gal.rs) over the product groups:
each group takes one row; when row_offset has reached max_row the next
group fails with MoreThanOneProduct or TooManyProducts, depending on
whether the bounds were a single-row slot at entry.  Returns the final
row offset together with the new fuse state. -/
def GAL.add_term_go (g : GAL) (line_num : Nat) (single_row : Bool)
    (start_row max_row row_offset : Nat) :
    List (List Pin) → Except Error (GAL × Nat)
  | [] => .ok (g, row_offset)
  | row :: rest =>
    if row_offset = max_row then
      .error { code := if single_row then .MoreThanOneProduct
                       else .TooManyProducts,
               line := line_num }
    else
      match g.set_and_row line_num (start_row + row_offset) row with
      | .error e => .error e
      | .ok g' =>
        g'.add_term_go line_num single_row start_row max_row (row_offset + 1)
          rest

/-- GAL.add_term (src/gal.rs): enter a term into the given set of rows
of the main logic array, then zero the unused part of the space. -/
def GAL.add_term (g : GAL) (term : Term) (bounds : Bounds) :
    Except Error GAL :=
  -- single_row is computed once, at entry: max_row = row_offset + 1.
  match g.add_term_go term.line_num
      (decide (bounds.max_row = bounds.row_offset + 1)) bounds.start_row
      bounds.max_row bounds.row_offset term.pins with
  | .error e => .error e
  | .ok (g', off) =>
    .ok (g'.clear_rows { start_row := bounds.start_row,
                         max_row := bounds.max_row, row_offset := off })

/-- GAL.add_term_opt (src/gal.rs): like add_term, but setting the term
to false if no Term is provided. -/
def GAL.add_term_opt (g : GAL) (term : Option Term) (bounds : Bounds) :
    Except Error GAL :=
  match term with
  | some t => g.add_term t bounds
  | none => g.add_term (false_term 0) bounds

/-! V8 mode analysis (src/olmc.rs). -/

/-- Output (src/olmc.rs): the possible output configurations of an
OLMC at mode-analysis time. -/
inductive Output
  | Undriven
  | ComOut (t : Term)
  | TriOut (t : Term)
  | RegOut (t : Term)
  | ComTriOut (t : Term)
deriving DecidableEq

/-- Discriminator for Output.RegOut. -/
def Output.is_reg_out : Output → Bool
  | .RegOut _ => true
  | _ => false

/-- Discriminator for Output.TriOut. -/
def Output.is_tri_out : Output → Bool
  | .TriOut _ => true
  | _ => false

/-- Discriminator for Output.ComTriOut. -/
def Output.is_com_tri_out : Output → Bool
  | .ComTriOut _ => true
  | _ => false

/-- OLMC (src/olmc.rs), restricted to the fields get_mode_v8 reads:
the output configuration and the feedback flag. -/
structure OLMC where
  output : Output
  feedback : Bool

/-- get_mode_v8 (src/olmc.rs): choose the GAL16V8/GAL20V8 mode from
the 8 OLMCs.  The source iterates n in 0..8 with early return; each
loop returns a fixed mode, so it is the any-combinator over n.  The
source's Mode3/Mode2/Mode1 are Registered/Complex/Simple. -/
def get_mode_v8 (chip : Chip) (olmcs : Fin 8 → OLMC) : Mode :=
  -- If there's a registered pin, it's mode 3.
  if (List.finRange 8).any (fun n => (olmcs n).output.is_reg_out) then
    .Registered
  -- If there's a tristate, it's mode 2.
  else if (List.finRange 8).any (fun n => (olmcs n).output.is_tri_out) then
    .Complex
  -- If we can't use mode 1, use mode 2.
  else if (List.finRange 8).any (fun n =>
      ((olmcs n).feedback && decide ((olmcs n).output = Output.Undriven) &&
        (if chip = Chip.GAL16V8 then
           decide (n.val + 12 = 15 ∨ n.val + 12 = 16)
         else if chip = Chip.GAL20V8 then
           decide (n.val + 15 = 18 ∨ n.val + 15 = 19)
         else false)) ||
      ((olmcs n).feedback && (olmcs n).output.is_com_tri_out)) then
    .Complex
  -- If there is still no mode defined, use mode 1.
  else
    .Simple

/-! Equation-to-term translation (src/blueprint.rs, src/parser.rs). -/

/-- Suffix (src/parser.rs). -/
inductive Suffix
  | None
  | T
  | R
  | E
  | CLK
  | APRST
  | ARST
deriving DecidableEq

/-- LHS (src/parser.rs). -/
inductive LHS
  | Pin (pin : Pin) (suffix : Suffix)
  | Ar
  | Sp
deriving DecidableEq

/-- Equation (src/parser.rs): the parsed form of one equation. -/
structure Equation where
  line_num : Nat
  lhs : LHS
  rhs : List Pin
  is_or : List Bool
deriving DecidableEq

/-- Grouping loop of eqn_to_term (src/blueprint.rs): walk rhs zipped
with is_or, starting a new AND group whenever is_or is set, and push
the final group. -/
def group_terms (ors : List (List Pin)) (ands : List Pin) :
    List (Pin × Bool) → List (List Pin)
  | [] => ors ++ [ands]
  | (pin, is_or) :: rest =>
    if is_or then group_terms (ors ++ [ands]) [pin] rest
    else group_terms ors (ands ++ [pin]) rest

/-- eqn_to_term (src/blueprint.rs): convert an Equation into a Term.
A right-hand side of exactly one pin naming VCC (pin num_pins) or GND
(pin num_pins / 2) is the constant shorthand, rejecting negation with
InvertedPower; everything else is grouped into OR'd AND groups. -/
def eqn_to_term (chip : Chip) (eqn : Equation) : Except ErrorCode Term :=
  let shortcut : Option (Except ErrorCode Term) :=
    match eqn.rhs with
    | [pin] =>
      if pin.pin = chip.num_pins then
        some (if pin.neg then .error .InvertedPower
              else .ok (true_term eqn.line_num))
      else if pin.pin = chip.num_pins / 2 then
        some (if pin.neg then .error .InvertedPower
              else .ok (false_term eqn.line_num))
      else none
    | _ => none
  match shortcut with
  | some r => r
  | none =>
    .ok { line_num := eqn.line_num,
          pins := group_terms [] [] (eqn.rhs.zip eqn.is_or) }

/-! Pin-table construction (src/parser.rs). -/

/-- PinMap models the parser's HashMap from pin name to Pin as an
association list; extend_pin_map only uses contains_key and insert on
fresh keys, on which the two agree. -/
abbrev PinMap : Type := List (String × Pin)

/-- Key-membership test on a PinMap (HashMap::contains_key). -/
def PinMap.contains_key (m : PinMap) (k : String) : Bool :=
  m.any (fun kv => kv.1 = k)

/-- Insertion into a PinMap (HashMap::insert on a fresh key). -/
def PinMap.insert (m : PinMap) (k : String) (v : Pin) : PinMap :=
  m ++ [(k, v)]

/-- Per-pin loop of extend_pin_map (src/parser.rs), with the running
pin number made explicit (the source zips the pins with first_pin..).
Checks, in source order: the name at position num_pins must be exactly
VCC unnegated; the name at num_pins / 2 must be exactly GND unnegated;
VCC must not appear at other positions; GND must not appear at other
positions; then non-NC names must be fresh and (on the 22V10) must not
be AR or SP, and are inserted. -/
def extend_pin_map_go (chip : Chip) (m : PinMap) (pin_num : Nat) :
    List (String × Bool) → Except ErrorCode PinMap
  | [] => .ok m
  | (name, neg) :: rest =>
    if pin_num = chip.num_pins ∧ ¬(name = "VCC" ∧ neg = false) then
      .error (.InvalidPowerPinName pin_num "VCC")
    else if pin_num = chip.num_pins / 2 ∧ ¬(name = "GND" ∧ neg = false) then
      .error (.InvalidPowerPinName pin_num "GND")
    else if name = "VCC" ∧ pin_num ≠ chip.num_pins then
      .error (.InvalidPowerPinLocation pin_num "VCC" chip.num_pins)
    else if name = "GND" ∧ pin_num ≠ chip.num_pins / 2 then
      .error (.InvalidPowerPinLocation pin_num "GND" (chip.num_pins / 2))
    else if name ≠ "NC" then
      if m.contains_key name then
        .error (.RepeatedPinName name)
      else if chip = Chip.GAL22V10 ∧ (name = "AR" ∨ name = "SP") then
        -- str::parse::<SpecialProductTerm> succeeds exactly on AR and SP.
        .error (.ReservedPinName name)
      else
        extend_pin_map_go chip (m.insert name { pin := pin_num, neg := neg })
          (pin_num + 1) rest
    else
      extend_pin_map_go chip m (pin_num + 1) rest

/-- extend_pin_map (src/parser.rs): add a row's worth of pins to the
pin map, starting at pin 1 + row_num * num_pins / 2. -/
def extend_pin_map (m : PinMap) (chip : Chip) (row_num : Nat)
    (pins : List (String × Bool)) : Except ErrorCode PinMap :=
  extend_pin_map_go chip m (1 + row_num * chip.num_pins / 2) pins

/-! JEDEC writer (src/jedec_writer.rs). -/

/-- Sum of a list of numbers. -/
def list_sum (l : List Nat) : Nat :=
  l.foldl (· + ·) 0

/-- CheckSummer (src/jedec_writer.rs): the fuse-checksum state — the
bit position within the current byte (a u8 kept below 8), the byte
being assembled (u8), and the running 16-bit sum. -/
structure CheckSummer where
  bit_num : Nat
  byte : Nat
  sum : Nat
deriving DecidableEq

/-- CheckSummer::new (src/jedec_writer.rs). -/
def CheckSummer.new : CheckSummer :=
  { bit_num := 0, byte := 0, sum := 0 }

/-- CheckSummer::add (src/jedec_writer.rs): set bit bit_num of the
byte when the input bit is set; after 8 bits fold the byte into the
sum with a 16-bit wrapping add. -/
def CheckSummer.add (cs : CheckSummer) (bit : Bool) : CheckSummer :=
  let byte := if bit then cs.byte ||| (1 <<< cs.bit_num) else cs.byte
  let bit_num := cs.bit_num + 1
  if bit_num = 8 then
    { bit_num := 0, byte := 0, sum := (cs.sum + byte) % 65536 }
  else
    { bit_num := bit_num, byte := byte, sum := cs.sum }

/-- CheckSummer::get (src/jedec_writer.rs): the current checksum; the
release-mode u16 add wraps, and the 0xffff mask is the identity. -/
def CheckSummer.get (cs : CheckSummer) : Nat :=
  (cs.sum + cs.byte) % 65536

/-- Byte list of a string literal (the writer appends to a String
buffer; we model the buffer as its list of bytes — the strings used
are ASCII). -/
def ascii (s : String) : List Nat :=
  s.data.map Char.toNat

/-- Left-pad a digit string with '0' to a given minimum width — the
Rust format specifiers 04 and 04x. -/
def pad_zeros (width : Nat) (ds : List Char) : List Char :=
  List.replicate (width - ds.length) '0' ++ ds

/-- Bytes of the decimal {:04} rendering of a number. -/
def fmt_dec4 (n : Nat) : List Nat :=
  (pad_zeros 4 (Nat.toDigits 10 n)).map Char.toNat

/-- Bytes of the lowercase hex {:04x} rendering of a number. -/
def fmt_hex4 (n : Nat) : List Nat :=
  (pad_zeros 4 (Nat.toDigits 16 n)).map Char.toNat

/-- FuseBuilder (src/jedec_writer.rs): output buffer bytes, checksum
state and running fuse index. -/
structure FuseBuilder where
  buf : List Nat
  checksum : CheckSummer
  idx : Nat

/-- FuseBuilder::new (src/jedec_writer.rs), with an empty buffer. -/
def FuseBuilder.new : FuseBuilder :=
  { buf := [], checksum := CheckSummer.new, idx := 0 }

/-- FuseBuilder::add_iter (src/jedec_writer.rs): append a "*L<idx> "
line for the given bits; every bit is pushed as '1' or '0', added to
the checksum, and counted.  The source's per-bit loop is batched into
one append; checksum and idx evolve identically. -/
def FuseBuilder.add_iter (fb : FuseBuilder) (bits : List Bool) : FuseBuilder :=
  { buf := fb.buf ++ ascii "*L" ++ fmt_dec4 fb.idx ++ [32] ++
      bits.map (fun b => if b then 49 else 48) ++ [10],
    checksum := bits.foldl CheckSummer.add fb.checksum,
    idx := fb.idx + bits.length }

/-- FuseBuilder::skip_iter (src/jedec_writer.rs): skip over zeros,
updating count and checksum but writing nothing. -/
def FuseBuilder.skip_iter (fb : FuseBuilder) (bits : List Bool) : FuseBuilder :=
  { buf := fb.buf,
    checksum := bits.foldl CheckSummer.add fb.checksum,
    idx := fb.idx + bits.length }

/-- FuseBuilder::checksum (src/jedec_writer.rs): append the *C line
carrying the {:04x} rendering of the fuse checksum. -/
def FuseBuilder.checksum_line (fb : FuseBuilder) : FuseBuilder :=
  { fb with buf := fb.buf ++ ascii "*C" ++ fmt_hex4 fb.checksum.get ++ [10] }

/-- Row length used by the writer (ROW_LEN_ADR16/20/22V10/20RA10 in
src/jedec_writer.rs). -/
def jedec_row_len : Chip → Nat
  | .GAL16V8 => 32
  | .GAL20V8 => 40
  | .GAL22V10 => 44
  | .GAL20RA10 => 40

/-- Chunking of the fuse list into rows (Itertools::chunks in
make_jedec), written with explicit fuel; fuel = length of the list is
always sufficient for chunk sizes ≥ 1. -/
def chunks_go (row_len : Nat) : Nat → List Bool → List (List Bool)
  | _, [] => []
  | 0, _ :: _ => []
  | fuel + 1, b :: bs =>
    (b :: bs).take row_len :: chunks_go row_len fuel ((b :: bs).drop row_len)

/-- itertools::interleave: alternate elements of the two lists,
appending the remainder of the longer one. -/
def interleave : List Bool → List Bool → List Bool
  | [], ys => ys
  | x :: xs, ys => x :: interleave ys xs
termination_by xs ys => xs.length + ys.length
decreasing_by simp; omega

/-- Inputs of make_jedec (src/jedec_writer.rs): the chip (the C-side
integer ids map one-to-one onto Chip), the security-bit config, and
the GAL bit-state slices. -/
structure JedecInput where
  gal_type : Chip
  sec_bit : Bool
  gal_fuses : List Bool
  gal_xor : List Bool
  gal_s1 : List Bool
  gal_sig : List Bool
  gal_ac1 : List Bool
  gal_pt : List Bool
  gal_syn : Bool
  gal_ac0 : Bool

/-- Device line written by make_jedec. -/
def device_line : Chip → String
  | .GAL16V8 => "Device:         GAL16V8\n\n"
  | .GAL20V8 => "Device:         GAL20V8\n\n"
  | .GAL22V10 => "Device:         GAL22V10\n\n"
  | .GAL20RA10 => "Device:         GAL20RA10\n\n"

/-- Fuse-count line written by make_jedec. -/
def qf_line : Chip → String
  | .GAL16V8 => "*QF2194\n"
  | .GAL20V8 => "*QF2706\n"
  | .GAL22V10 => "*QF5892\n"
  | .GAL20RA10 => "*QF3274\n"

/-- Header part of make_jedec (src/jedec_writer.rs): STX, newline, the
two tool comment lines, the device line, *F0, the security line, and
the *QF line. -/
def jedec_header (inp : JedecInput) : List Nat :=
  [2, 10] ++
  ascii "Used Program:   GALasm 2.1\n" ++
  ascii "GAL-Assembler:  GALasm 2.1\n" ++
  ascii (device_line inp.gal_type) ++
  ascii "*F0\n" ++
  ascii (if inp.sec_bit then "*G1\n" else "*G0\n") ++
  ascii (qf_line inp.gal_type)

/-- Fuse-matrix part of make_jedec (src/jedec_writer.rs): rows with at
least one set bit are written, all-zero rows are skipped (but still
checksummed and counted). -/
def fuse_matrix_fb (inp : JedecInput) : FuseBuilder :=
  (chunks_go (jedec_row_len inp.gal_type) inp.gal_fuses.length
      inp.gal_fuses).foldl
    (fun fb row =>
      if row.any (fun b => b) then fb.add_iter row else fb.skip_iter row)
    FuseBuilder.new

/-- XOR line of make_jedec: the XOR bits, interleaved with the S1 bits
on the GAL22V10. -/
def xor_fb (inp : JedecInput) (fb : FuseBuilder) : FuseBuilder :=
  if inp.gal_type ≠ Chip.GAL22V10 then
    fb.add_iter inp.gal_xor
  else
    fb.add_iter (interleave inp.gal_xor inp.gal_s1)

/-- Fuse section of make_jedec (src/jedec_writer.rs): the fuse matrix,
the XOR line, the signature line, and on the V8s the AC1, PT, SYN and
AC0 lines. -/
def fuse_section (inp : JedecInput) : FuseBuilder :=
  let fb := (xor_fb inp (fuse_matrix_fb inp)).add_iter inp.gal_sig
  if inp.gal_type = Chip.GAL16V8 ∨ inp.gal_type = Chip.GAL20V8 then
    (((fb.add_iter inp.gal_ac1).add_iter inp.gal_pt).add_iter
      [inp.gal_syn]).add_iter [inp.gal_ac0]
  else
    fb

/-- Body of the JEDEC file before the file checksum (the String buffer
of make_jedec as of the final ETX): the header, the fuse section with
its *C checksum line, "*", newline, ETX. -/
def jedec_body (inp : JedecInput) : List Nat :=
  jedec_header inp ++ (fuse_section inp).checksum_line.buf ++
    ascii "*\n" ++ [3]

/-- make_jedec (src/jedec_writer.rs) as the list of output bytes: the
body, and finally the file checksum — the u32 sum of every byte of the
body, rendered with {:04x} and a newline.  (The sum is reduced mod
2^32 as the u32 wraps; no 16-bit reduction is applied.) -/
def make_jedec (inp : JedecInput) : List Nat :=
  jedec_body inp ++ fmt_hex4 (list_sum (jedec_body inp) % 4294967296) ++ [10]

/-! Specification-side definitions.  Everything in this section is
written from the words of the specification (or of the claims), to be
compared against the source-derived definitions above. -/

/-- Mode selection as the specification words it (spec §4.5.2, claim
C1): registered output anywhere gives Registered; else a tristate
output anywhere gives Complex; else an OLMC with feedback, no output,
and zero-based index 3 or 4 gives Complex; else an OLMC with feedback
and a (combinatorial) output gives Complex; else Simple. -/
def spec_mode_v8 (olmcs : Fin 8 → OLMC) : Mode :=
  if ∃ n, (olmcs n).output.is_reg_out then .Registered
  else if ∃ n, (olmcs n).output.is_tri_out then .Complex
  else if ∃ n, (olmcs n).feedback ∧ (olmcs n).output = Output.Undriven ∧
      (n.val = 3 ∨ n.val = 4) then .Complex
  else if ∃ n, (olmcs n).feedback ∧ (olmcs n).output.is_com_tri_out then
    .Complex
  else .Simple

/-- Mode fuse encoding as the claim words it: Simple = (syn true,
ac0 false), Complex = (syn true, ac0 true), Registered = (syn false,
ac0 true). -/
def mode_fuse_bits : Mode → Bool × Bool
  | .Simple => (true, false)
  | .Complex => (true, true)
  | .Registered => (false, true)

/-- Value of a byte whose bits are listed little-endian (first bit is
the least significant). -/
def byte_val : List Bool → Nat
  | [] => 0
  | b :: rest => (if b then 1 else 0) + 2 * byte_val rest

/-- Packing of a bit stream into bytes, little-endian within each
byte, in order; a trailing partial byte is packed the same way. -/
def pack_bytes : List Bool → List Nat
  | [] => []
  | b :: rest =>
    byte_val ((b :: rest).take 8) :: pack_bytes ((b :: rest).drop 8)
termination_by bits => bits.length
decreasing_by simp; omega

/-- Bits fed to the fuse checksum, in emission order, as the claim
words it: the fuse bits, then the xor bits (interleaved with the s1
bits on the 22V10), the signature bits, and on the V8s the ac1, pt,
syn and ac0 bits. -/
def emission_bits (inp : JedecInput) : List Bool :=
  inp.gal_fuses ++
  (if inp.gal_type = Chip.GAL22V10 then interleave inp.gal_xor inp.gal_s1
   else inp.gal_xor) ++
  inp.gal_sig ++
  (if inp.gal_type = Chip.GAL16V8 ∨ inp.gal_type = Chip.GAL20V8 then
    inp.gal_ac1 ++ inp.gal_pt ++ [inp.gal_syn, inp.gal_ac0]
  else [])

/-- Modelled from the spec: the GAL22V10 global AR/SP step of the
fuse-map builder — "write blueprint.ar (or false_term if absent) into
row 0 of the fuse array, and blueprint.sp (or false_term) into row
131" (spec §4.5.3).  The Blueprint-based builder that performs this
step is missing from src/ (src/gal_builder.rs is an earlier C-port
revision, inconsistent with the 10-entry OLMC row table of
src/chips.rs); rows 0 and 131 are single-row slots, so the step is
add_term_opt (src/gal.rs) at bounds start_row 0 (respectively 131),
max_row 1, row_offset 0. -/
def build_ar_sp (g : GAL) (ar sp : Option Term) : Except Error GAL :=
  match g.add_term_opt ar { start_row := 0, max_row := 1, row_offset := 0 } with
  | .error e => .error e
  | .ok g1 =>
    g1.add_term_opt sp { start_row := 131, max_row := 1, row_offset := 0 }

/-- Whether writing the single product group p into a row clears
column slot c: some pin of p maps to column col and c is col plus the
effective negation offset (after the 22V10 flip). -/
def clears_at (g : GAL) (p : List Pin) (c : Nat) : Bool :=
  p.any fun q =>
    match g.pin_to_column q.pin with
    | .ok col =>
      c = col + (if q.neg ^^ g.needs_flip q.pin then 1 else 0)
    | .error _ => false

/-- Expected content of a single-row slot after a term (or its
absence) is written into it: column c of the row at fuse index base is
cleared for an absent term, a false term, and the columns a single
product group clears; otherwise it keeps its previous value.  (Only
used under the single-product hypotheses of the AR/SP theorem.) -/
def row_content (g : GAL) (t : Option Term) (base c : Nat) : Bool :=
  match t with
  | none => false
  | some t =>
    match t.pins with
    | [] => false
    | [p] => if clears_at g p c then false else g.fuses (base + c)
    | _ => false

/-- Shape hypothesis for the AR/SP theorem: the optional term is
absent, false, or a single product group all of whose pins map to
columns (with room for the negation offset in a 44-column row). -/
def single_product_ok (g : GAL) (t : Option Term) : Prop :=
  match t with
  | none => True
  | some t =>
    t.pins = [] ∨
    ∃ p, t.pins = [p] ∧
      ∀ q ∈ p, ∃ col, g.pin_to_column q.pin = .ok col ∧ col + 1 < 44

/-- Whether the write of one pin reference landed at offset o from
its column: the fuse at base + o is cleared and the fuse at the other
offset, base + (1 - o), keeps its previous value. -/
def written_at (g g' : GAL) (base o : Nat) : Prop :=
  g'.fuses (base + o) = false ∧
  g'.fuses (base + (1 - o)) = g.fuses (base + (1 - o))

/-! Concrete inputs used by witnesses and counterexamples. -/

/-- Equation with a negated VCC reference inside a two-pin right-hand
side, on the GAL16V8 (VCC is pin 20): O12 = /VCC * A2 on line 7. -/
def c8_eqn : Equation :=
  { line_num := 7,
    lhs := .Pin { pin := 12, neg := false } .None,
    rhs := [{ pin := 20, neg := true }, { pin := 2, neg := false }],
    is_or := [false, false] }

/-- Fresh GAL16V8 fuse state in Simple mode. -/
def c8_gal : GAL :=
  (GAL.new Chip.GAL16V8).set_mode Mode.Simple

/-- Pin row for a GAL20V8 whose twelfth name (pin position 12, the GND
position) is VCC. -/
def c9_pins : List (String × Bool) :=
  [("A1", false), ("A2", false), ("A3", false), ("A4", false),
   ("A5", false), ("A6", false), ("A7", false), ("A8", false),
   ("A9", false), ("A10", false), ("A11", false), ("VCC", false)]

/-- A fully-populated GAL16V8 bit-state handed to the JEDEC writer
(every fuse intact, registered-mode bits): large enough that the file
byte sum exceeds 0xffff. -/
def c3_input : JedecInput :=
  { gal_type := Chip.GAL16V8, sec_bit := false,
    gal_fuses := List.replicate 2048 true,
    gal_xor := List.replicate 8 false,
    gal_s1 := List.replicate 10 false,
    gal_sig := List.replicate 64 false,
    gal_ac1 := List.replicate 8 true,
    gal_pt := List.replicate 64 true,
    gal_syn := false, gal_ac0 := true }

/-! Theorems.  Helper lemmas come first, then one theorem per claim
(with witnesses and counterexamples). -/

/-- set_and only rewrites the fuse array: chip, ac1, syn and ac0 are
unchanged, and on success the fuse array is a pointwise update. -/
theorem set_and_ok_iff (g : GAL) (row pin_num : Nat) (negation : Bool)
    (g' : GAL) :
    g.set_and row pin_num negation = .ok g' ↔
      ∃ column, g.pin_to_column pin_num = .ok column ∧
        g' = { g with
               fuses := fun j =>
                 if j = row * g.chip.num_cols + column +
                     (if negation then 1 else 0) then false
                 else g.fuses j } := by
  unfold GAL.set_and
  cases h : g.pin_to_column pin_num <;> simp [h, eq_comm]

/-- Bound extraction for a table lookup: when every ok entry of the
table is below the bound, so is any looked-up column. -/
theorem getD_ok_bound (L : List (Except ErrorCode Nat)) (N : Nat)
    (hL : L.all (fun x => match x with
      | .ok c => decide (c + 1 < N)
      | .error _ => true) = true) (k col : Nat)
    (h : L.getD k (.error .BadAnalysis) = .ok col) : col + 1 < N := by
  rcases Nat.lt_or_ge k L.length with hk | hk
  · rw [List.getD_eq_getElem L _ hk] at h
    have hmem := (List.all_eq_true.mp hL) _ (List.getElem_mem hk)
    rw [h] at hmem
    simpa using hmem
  · rw [List.getD_eq_default L _ hk] at h
    cases h

/-- Every column produced by the pin-to-column tables leaves room for
the negation offset within the row: column + 1 < num_cols. -/
theorem pin_to_column_bound (g : GAL) (pin_num col : Nat)
    (h : g.pin_to_column pin_num = .ok col) :
    col + 1 < g.chip.num_cols := by
  unfold GAL.pin_to_column GAL.column_lookup at h
  rcases g with ⟨chip, fuses, ac1, syn, ac0⟩
  cases chip <;> cases syn <;> cases ac0 <;>
    dsimp only [GAL.get_mode] at h <;>
    first
      | exact getD_ok_bound _ 32 (by decide) _ _ h
      | exact getD_ok_bound _ 40 (by decide) _ _ h
      | exact getD_ok_bound _ 44 (by decide) _ _ h

/-- set_and_row preserves chip, ac1, syn and ac0, and never touches a
fuse index outside the given row. -/
theorem set_and_row_ok (g : GAL) (line row : Nat) (inputs : List Pin)
    (g' : GAL) (h : g.set_and_row line row inputs = .ok g') :
    g'.chip = g.chip ∧ g'.ac1 = g.ac1 ∧ g'.syn = g.syn ∧ g'.ac0 = g.ac0 ∧
      ∀ j, (j < row * g.chip.num_cols ∨ (row + 1) * g.chip.num_cols ≤ j) →
        g'.fuses j = g.fuses j := by
  induction inputs generalizing g with
  | nil =>
    simp only [GAL.set_and_row] at h
    cases h
    exact ⟨rfl, rfl, rfl, rfl, fun _ _ => rfl⟩
  | cons input rest ih =>
    rw [GAL.set_and_row] at h
    rcases h2 : g.set_and row input.pin (input.neg ^^ g.needs_flip input.pin)
      with e' | g1
    · rw [h2] at h; simp [at_line] at h
    · rw [h2] at h
      simp only [at_line] at h
      rw [set_and_ok_iff] at h2
      obtain ⟨col, hcol, rfl⟩ := h2
      have hb := pin_to_column_bound g _ _ hcol
      obtain ⟨hc, ha, hs, h0, hf⟩ := ih _ h
      refine ⟨hc, ha, hs, h0, fun j hj => ?_⟩
      rw [hf j (by simpa using hj)]
      simp only
      rw [if_neg]
      intro hEq
      have hm : (row + 1) * g.chip.num_cols = row * g.chip.num_cols +
          g.chip.num_cols := by ring
      have hoff : (if (input.neg ^^ g.needs_flip input.pin) = true
          then 1 else 0) ≤ 1 := by split <;> omega
      rcases hj with hj | hj <;> omega

/-- Updating only the fuse array does not change the pin-to-column
mapping (it depends only on chip, syn and ac0). -/
theorem pin_to_column_update_fuses (g : GAL) (f : Nat → Bool) (p : Nat) :
    ({ g with fuses := f } : GAL).pin_to_column p = g.pin_to_column p := rfl

/-- set_and_row succeeds when every referenced pin maps to a column. -/
theorem set_and_row_total (g : GAL) (line row : Nat) (inputs : List Pin)
    (hpins : ∀ q ∈ inputs, ∃ c, g.pin_to_column q.pin = .ok c) :
    ∃ g', g.set_and_row line row inputs = .ok g' := by
  induction inputs generalizing g with
  | nil => exact ⟨g, rfl⟩
  | cons input rest ih =>
    obtain ⟨c, hc⟩ := hpins input (List.mem_cons_self _ _)
    rw [GAL.set_and_row]
    unfold GAL.set_and
    rw [hc]
    simp only [at_line]
    exact ih _ (fun q hq => hpins q (List.mem_cons_of_mem _ hq))

/-- Capacity behaviour of the add_term row loop: with row_offset ≤
max_row and all pins mapping to columns, the loop succeeds exactly
when the number of product groups fits in the remaining rows, and
otherwise fails with the error selected by the single_row flag. -/
theorem add_term_go_capacity (rows : List (List Pin)) (g : GAL)
    (line : Nat) (single_row : Bool) (start_row max_row row_offset : Nat)
    (hb : row_offset ≤ max_row)
    (hpins : ∀ p ∈ rows, ∀ q ∈ p, ∃ c, g.pin_to_column q.pin = .ok c) :
    (rows.length ≤ max_row - row_offset →
      ∃ g', g.add_term_go line single_row start_row max_row row_offset rows =
        .ok (g', row_offset + rows.length)) ∧
    (max_row - row_offset < rows.length →
      g.add_term_go line single_row start_row max_row row_offset rows =
        .error { code := if single_row then .MoreThanOneProduct
                         else .TooManyProducts,
                 line := line }) := by
  induction rows generalizing g row_offset with
  | nil =>
    constructor
    · intro _
      exact ⟨g, by simp [GAL.add_term_go]⟩
    · intro habs
      exact absurd habs (by simp)
  | cons p rest ih =>
    by_cases hoff : row_offset = max_row
    · constructor
      · intro hlen
        simp only [List.length_cons] at hlen
        exact absurd hlen (by omega)
      · intro _
        rw [GAL.add_term_go]
        simp [hoff]
    · obtain ⟨g1, hg1⟩ := set_and_row_total g line (start_row + row_offset) p
        (hpins p (List.mem_cons_self _ _))
      obtain ⟨hc, ha, hs, h0, _⟩ := set_and_row_ok g line _ p g1 hg1
      have hpins1 : ∀ q ∈ rest, ∀ r ∈ q, ∃ c, g1.pin_to_column r.pin = .ok c := by
        intro q hq r hr
        obtain ⟨c, hcol⟩ := hpins q (List.mem_cons_of_mem _ hq) r hr
        refine ⟨c, ?_⟩
        unfold GAL.pin_to_column GAL.column_lookup GAL.get_mode at hcol ⊢
        rw [hc, hs, h0]
        exact hcol
      obtain ⟨ihok, iherr⟩ := ih g1 (row_offset + 1) (by omega) hpins1
      have hstep : ∀ (r : Except Error (GAL × Nat)),
          g1.add_term_go line single_row start_row max_row (row_offset + 1)
            rest = r →
          g.add_term_go line single_row start_row max_row row_offset
            (p :: rest) = r := by
        intro r hr
        rw [GAL.add_term_go, if_neg hoff, hg1]
        exact hr
      constructor
      · intro hlen
        simp only [List.length_cons] at hlen ⊢
        obtain ⟨g', hgo⟩ := ihok (by omega)
        refine ⟨g', ?_⟩
        have harith : row_offset + 1 + rest.length =
            row_offset + (rest.length + 1) := by omega
        rw [harith] at hgo
        exact hstep _ hgo
      · intro hlen
        simp only [List.length_cons] at hlen
        exact hstep _ (iherr (by omega))

/-- C5: for every term and bounds, add_term succeeds when the term's
number of product groups is at most max_row minus the initial
row_offset (assuming every pin maps to a usable column), and fails as
soon as a further product group would be written: with
MoreThanOneProduct when max_row equalled row_offset + 1 at entry
(single-row slots such as enable and clock), and with TooManyProducts
otherwise. -/
theorem galette_c5_add_term_capacity (g : GAL) (t : Term) (b : Bounds)
    (hb : b.row_offset ≤ b.max_row)
    (hpins : ∀ p ∈ t.pins, ∀ q ∈ p, ∃ c, g.pin_to_column q.pin = .ok c) :
    (t.pins.length ≤ b.max_row - b.row_offset →
      ∃ g', g.add_term t b = .ok g') ∧
    (b.max_row - b.row_offset < t.pins.length →
      g.add_term t b =
        .error { code := if b.max_row = b.row_offset + 1 then
                           ErrorCode.MoreThanOneProduct
                         else ErrorCode.TooManyProducts,
                 line := t.line_num }) := by
  obtain ⟨hok, herr⟩ := add_term_go_capacity t.pins g t.line_num
    (decide (b.max_row = b.row_offset + 1)) b.start_row b.max_row
    b.row_offset hb hpins
  constructor
  · intro hlen
    obtain ⟨g', hgo⟩ := hok hlen
    refine ⟨g'.clear_rows ⟨b.start_row, b.max_row,
      b.row_offset + t.pins.length⟩, ?_⟩
    unfold GAL.add_term
    rw [hgo]
  · intro hlen
    have herr' := herr hlen
    unfold GAL.add_term
    rw [herr']
    simp

/-- Monotonicity of row base indices. -/
theorem row_block_le (s a b nc : Nat) (h : a ≤ b) :
    (s + a) * nc ≤ (s + b) * nc :=
  Nat.mul_le_mul_right nc (by omega)

/-- An in-row index stays below the base of any later row block. -/
theorem row_block_lt (s r m c nc : Nat) (hr : r < m) (hc : c < nc) :
    (s + r) * nc + c < (s + m) * nc := by
  have h1 : (s + r + 1) * nc ≤ (s + m) * nc := Nat.mul_le_mul_right nc (by omega)
  have h2 : (s + r + 1) * nc = (s + r) * nc + nc := by ring
  omega

/-- C6: placing true_term (one empty product group) into any bounds
leaves every fuse of the first row of the bounds unchanged and clears
every fuse of the remaining rows up to max_row; placing false_term
(zero product groups) into any bounds clears every fuse of every row
of the bounds. -/
theorem galette_c6_true_false_term (g : GAL) (b : Bounds) (line : Nat)
    (hb : b.row_offset < b.max_row) :
    (∃ g', g.add_term (true_term line) b = .ok g' ∧
      (∀ c < g.chip.num_cols,
        g'.fuses ((b.start_row + b.row_offset) * g.chip.num_cols + c) =
          g.fuses ((b.start_row + b.row_offset) * g.chip.num_cols + c)) ∧
      (∀ r c, b.row_offset < r → r < b.max_row → c < g.chip.num_cols →
        g'.fuses ((b.start_row + r) * g.chip.num_cols + c) = false)) ∧
    (∃ g'', g.add_term (false_term line) b = .ok g'' ∧
      ∀ r c, b.row_offset ≤ r → r < b.max_row → c < g.chip.num_cols →
        g''.fuses ((b.start_row + r) * g.chip.num_cols + c) = false) := by
  constructor
  · have hgo : g.add_term_go line
        (decide (b.max_row = b.row_offset + 1)) b.start_row b.max_row
        b.row_offset [[]] = .ok (g, b.row_offset + 1) := by
      rw [GAL.add_term_go, if_neg (by omega)]
      rfl
    refine ⟨g.clear_rows ⟨b.start_row, b.max_row, b.row_offset + 1⟩, ?_, ?_, ?_⟩
    · unfold GAL.add_term
      rw [show (true_term line).pins = [[]] from rfl,
        show (true_term line).line_num = line from rfl, hgo]
    · intro c hc
      unfold GAL.clear_rows
      simp only
      rw [if_neg]
      intro ⟨hlo, _⟩
      have h2 : (b.start_row + (b.row_offset + 1)) * g.chip.num_cols =
          (b.start_row + b.row_offset) * g.chip.num_cols + g.chip.num_cols := by
        ring
      omega
    · intro r c hr hrm hc
      unfold GAL.clear_rows
      simp only
      rw [if_pos]
      exact ⟨le_trans (row_block_le b.start_row (b.row_offset + 1) r
          g.chip.num_cols (by omega)) (Nat.le_add_right _ _),
        row_block_lt b.start_row r b.max_row c g.chip.num_cols hrm hc⟩
  · have hgo : g.add_term_go line
        (decide (b.max_row = b.row_offset + 1)) b.start_row b.max_row
        b.row_offset [] = .ok (g, b.row_offset) := rfl
    refine ⟨g.clear_rows ⟨b.start_row, b.max_row, b.row_offset⟩, ?_, ?_⟩
    · unfold GAL.add_term
      rw [show (false_term line).pins = [] from rfl,
        show (false_term line).line_num = line from rfl, hgo]
    · intro r c hr hrm hc
      unfold GAL.clear_rows
      simp only
      rw [if_pos]
      exact ⟨le_trans (row_block_le b.start_row b.row_offset r
          g.chip.num_cols (by omega)) (Nat.le_add_right _ _),
        row_block_lt b.start_row r b.max_row c g.chip.num_cols hrm hc⟩

/-- set_and_row only ever clears fuses, never sets them. -/
theorem set_and_row_mono (g : GAL) (line row : Nat) (inputs : List Pin)
    (g' : GAL) (h : g.set_and_row line row inputs = .ok g') :
    ∀ j, g'.fuses j = true → g.fuses j = true := by
  induction inputs generalizing g with
  | nil =>
    simp only [GAL.set_and_row] at h
    cases h
    exact fun _ hj => hj
  | cons input rest ih =>
    rw [GAL.set_and_row] at h
    rcases h2 : g.set_and row input.pin (input.neg ^^ g.needs_flip input.pin)
      with e' | g1
    · rw [h2] at h; simp [at_line] at h
    · rw [h2] at h
      simp only [at_line] at h
      rw [set_and_ok_iff] at h2
      obtain ⟨col, hcol, rfl⟩ := h2
      intro j hj
      have := ih _ h j hj
      simp only at this
      by_cases hjidx : j = row * g.chip.num_cols + col +
          (if (input.neg ^^ g.needs_flip input.pin) = true then 1 else 0)
      · rw [if_pos hjidx] at this
        cases this
      · rwa [if_neg hjidx] at this

/-- Fuses cleared by set_and_row: every referenced pin's column (with
its effective negation offset) is cleared in the given row. -/
theorem set_and_row_clears (g : GAL) (line row : Nat) (inputs : List Pin)
    (g' : GAL) (h : g.set_and_row line row inputs = .ok g') :
    ∀ q ∈ inputs, ∀ cq, g.pin_to_column q.pin = .ok cq →
      g'.fuses (row * g.chip.num_cols + cq +
        (if q.neg ^^ g.needs_flip q.pin then 1 else 0)) = false := by
  induction inputs generalizing g with
  | nil => intro q hq; cases hq
  | cons input rest ih =>
    rw [GAL.set_and_row] at h
    rcases h2 : g.set_and row input.pin (input.neg ^^ g.needs_flip input.pin)
      with e' | g1
    · rw [h2] at h; simp [at_line] at h
    · rw [h2] at h
      simp only [at_line] at h
      rw [set_and_ok_iff] at h2
      obtain ⟨col, hcol, rfl⟩ := h2
      intro q hq cq hcq
      rcases List.mem_cons.mp hq with rfl | hq'
    -- the head pin: its fuse is cleared now and stays cleared
      · rw [hcol] at hcq
        have hcc := Except.ok.inj hcq
        rw [← hcc]
        by_contra habs
        have hmono := set_and_row_mono _ line row rest g' h
          (row * g.chip.num_cols + col +
            (if q.neg ^^ g.needs_flip q.pin then 1 else 0))
          (by cases hgj : g'.fuses (row * g.chip.num_cols + col +
                (if q.neg ^^ g.needs_flip q.pin then 1 else 0)) with
              | true => rfl
              | false => exact absurd hgj habs)
        simp only [if_pos rfl] at hmono
        cases hmono
      · exact ih _ h q hq' cq hcq

/-- Fuses not referenced by set_and_row are unchanged (restatement of
set_and_row as a pointwise description). -/
theorem set_and_row_misses (g : GAL) (line row : Nat) (inputs : List Pin)
    (g' : GAL) (h : g.set_and_row line row inputs = .ok g') :
    ∀ j, (∀ q ∈ inputs, ∀ cq, g.pin_to_column q.pin = .ok cq →
        j ≠ row * g.chip.num_cols + cq +
          (if q.neg ^^ g.needs_flip q.pin then 1 else 0)) →
      g'.fuses j = g.fuses j := by
  induction inputs generalizing g with
  | nil =>
    simp only [GAL.set_and_row] at h
    cases h
    exact fun _ _ => rfl
  | cons input rest ih =>
    rw [GAL.set_and_row] at h
    rcases h2 : g.set_and row input.pin (input.neg ^^ g.needs_flip input.pin)
      with e' | g1
    · rw [h2] at h; simp [at_line] at h
    · rw [h2] at h
      simp only [at_line] at h
      rw [set_and_ok_iff] at h2
      obtain ⟨col, hcol, rfl⟩ := h2
      intro j hj
      rw [ih _ h j (fun q hq cq hcq => hj q (List.mem_cons_of_mem _ hq) cq hcq)]
      simp only
      rw [if_neg]
      exact hj input (List.mem_cons_self _ _) col hcol

/-- Placing a single product group: the group's fuses are cleared in
the first row of the bounds, the rest of that row is untouched, and
the remaining rows of the bounds are zeroed. -/
theorem add_term_single_product (g : GAL) (p : List Pin) (b : Bounds)
    (line : Nat) (hb : b.row_offset < b.max_row)
    (hpins : ∀ q ∈ p, ∃ c, g.pin_to_column q.pin = .ok c) :
    ∃ g', g.add_term { line_num := line, pins := [p] } b = .ok g' ∧
      (∀ q ∈ p, ∀ cq, g.pin_to_column q.pin = .ok cq →
        g'.fuses ((b.start_row + b.row_offset) * g.chip.num_cols + cq +
          (if q.neg ^^ g.needs_flip q.pin then 1 else 0)) = false) ∧
      (∀ j, (∀ q ∈ p, ∀ cq, g.pin_to_column q.pin = .ok cq →
          j ≠ (b.start_row + b.row_offset) * g.chip.num_cols + cq +
            (if q.neg ^^ g.needs_flip q.pin then 1 else 0)) →
        ¬((b.start_row + (b.row_offset + 1)) * g.chip.num_cols ≤ j ∧
          j < (b.start_row + b.max_row) * g.chip.num_cols) →
        g'.fuses j = g.fuses j) ∧
      (∀ j, (b.start_row + (b.row_offset + 1)) * g.chip.num_cols ≤ j →
        j < (b.start_row + b.max_row) * g.chip.num_cols →
        g'.fuses j = false) := by
  obtain ⟨g1, hg1⟩ := set_and_row_total g line
    (b.start_row + b.row_offset) p hpins
  have hgo : g.add_term_go line (decide (b.max_row = b.row_offset + 1))
      b.start_row b.max_row b.row_offset [p] = .ok (g1, b.row_offset + 1) := by
    rw [GAL.add_term_go, if_neg (by omega), hg1]
    rfl
  have hchip : g1.chip = g.chip := (set_and_row_ok g line _ p g1 hg1).1
  refine ⟨g1.clear_rows ⟨b.start_row, b.max_row, b.row_offset + 1⟩, ?_, ?_, ?_, ?_⟩
  · unfold GAL.add_term
    rw [show (Term.mk line [p]).pins = [p] from rfl,
      show (Term.mk line [p]).line_num = line from rfl, hgo]
  · intro q hq cq hcq
    unfold GAL.clear_rows
    simp only [hchip]
    by_cases hin : (b.start_row + (b.row_offset + 1)) * g.chip.num_cols ≤
        (b.start_row + b.row_offset) * g.chip.num_cols + cq +
          (if q.neg ^^ g.needs_flip q.pin then 1 else 0) ∧
        (b.start_row + b.row_offset) * g.chip.num_cols + cq +
          (if q.neg ^^ g.needs_flip q.pin then 1 else 0) <
          (b.start_row + b.max_row) * g.chip.num_cols
    · rw [if_pos hin]
    · rw [if_neg hin]
      exact set_and_row_clears g line _ p g1 hg1 q hq cq hcq
  · intro j hmiss hrows
    unfold GAL.clear_rows
    simp only [hchip]
    rw [if_neg (by simpa using hrows)]
    exact set_and_row_misses g line _ p g1 hg1 j hmiss
  · intro j hlo hhi
    unfold GAL.clear_rows
    simp only [hchip]
    rw [if_pos ⟨by simpa using hlo, by simpa using hhi⟩]

/-- C4: when add_term writes a pin reference into the fuse grid on a
GAL22V10, if the referenced pin maps to an OLMC whose ac1 bit (at
index num_olmcs - 1 - i) is false, the negation offset of that
reference is flipped (the fuse cleared is at column + (1 -
neg_offset), the fuse at column + neg_offset is untouched); for all
other chips, and for 22V10 pins whose ac1 bit is true or that map to
no OLMC, the offset is not flipped. -/
theorem galette_c4_flip (g : GAL) (input : Pin) (b : Bounds)
    (line col : Nat) (hcol : g.pin_to_column input.pin = .ok col)
    (hb : b.row_offset < b.max_row) :
    ∃ g', g.add_term { line_num := line, pins := [[input]] } b = .ok g' ∧
      ((g.chip = Chip.GAL22V10 →
        ∀ i, g.chip.pin_to_olmc input.pin = some i →
          g.ac1 (g.chip.num_olmcs - 1 - i) = false →
          written_at g g'
            ((b.start_row + b.row_offset) * g.chip.num_cols + col)
            (1 - (if input.neg then 1 else 0))) ∧
       (g.chip ≠ Chip.GAL22V10 →
         written_at g g'
           ((b.start_row + b.row_offset) * g.chip.num_cols + col)
           (if input.neg then 1 else 0)) ∧
       (g.chip = Chip.GAL22V10 → g.chip.pin_to_olmc input.pin = none →
         written_at g g'
           ((b.start_row + b.row_offset) * g.chip.num_cols + col)
           (if input.neg then 1 else 0)) ∧
       (g.chip = Chip.GAL22V10 →
         ∀ i, g.chip.pin_to_olmc input.pin = some i →
           g.ac1 (g.chip.num_olmcs - 1 - i) = true →
           written_at g g'
             ((b.start_row + b.row_offset) * g.chip.num_cols + col)
             (if input.neg then 1 else 0))) := by
  obtain ⟨g', heq, hclears, hmisses, hrows⟩ :=
    add_term_single_product g [input] b line hb
      (fun q hq => by
        rcases List.mem_cons.mp hq with rfl | habs
        · exact ⟨col, hcol⟩
        · cases habs)
  have hcolbound := pin_to_column_bound g input.pin col hcol
  refine ⟨g', heq, ?_⟩
  -- Generic description for a known value of the flip flag.
  have hwr : ∀ fl : Bool, g.needs_flip input.pin = fl →
      written_at g g' ((b.start_row + b.row_offset) * g.chip.num_cols + col)
        (if input.neg ^^ fl then 1 else 0) := by
    intro fl hfl
    constructor
    · have hcl := hclears input (List.mem_cons_self _ _) col hcol
      rw [hfl] at hcl
      have harr : (b.start_row + b.row_offset) * g.chip.num_cols + col +
          (if (input.neg ^^ fl) = true then 1 else 0) =
          (b.start_row + b.row_offset) * g.chip.num_cols + col +
          (if input.neg ^^ fl then 1 else 0) := rfl
      rw [← harr]
      exact hcl
    · apply hmisses
      · intro q hq cq hcq
        rcases List.mem_cons.mp hq with rfl | habs
        · have hcc := Except.ok.inj (hcol ▸ hcq)
          rw [hfl, ← hcc]
          cases hneg : (q.neg ^^ fl) <;> simp [hneg]
        · cases habs
      · intro ⟨hlo, _⟩
        have hring : (b.start_row + (b.row_offset + 1)) * g.chip.num_cols =
            (b.start_row + b.row_offset) * g.chip.num_cols +
              g.chip.num_cols := by ring
        have hoffle : (1 - (if (input.neg ^^ fl) = true then (1 : Nat)
            else 0)) ≤ 1 := by split <;> omega
        omega
  refine ⟨?_, ?_, ?_, ?_⟩
  · intro h22 i hi hac
    rw [h22] at hi hac
    have hfl : g.needs_flip input.pin = true := by
      simp [GAL.needs_flip, h22, hi, hac]
    have hres := hwr true hfl
    cases hn : input.neg <;> rw [hn] at hres <;> simpa [hn] using hres
  · intro hne
    have hfl : g.needs_flip input.pin = false := by
      simp [GAL.needs_flip, hne]
    have hres := hwr false hfl
    cases hn : input.neg <;> rw [hn] at hres <;> simpa [hn] using hres
  · intro h22 hnone
    rw [h22] at hnone
    have hfl : g.needs_flip input.pin = false := by
      simp [GAL.needs_flip, h22, hnone]
    have hres := hwr false hfl
    cases hn : input.neg <;> rw [hn] at hres <;> simpa [hn] using hres
  · intro h22 i hi hac
    rw [h22] at hi hac
    have hfl : g.needs_flip input.pin = false := by
      simp [GAL.needs_flip, h22, hi, hac]
    have hres := hwr false hfl
    cases hn : input.neg <;> rw [hn] at hres <;> simpa [hn] using hres

/-- Witness for C4: a fresh GAL22V10 (all ac1 bits false, so pin 14 is
a registered OLMC pin) with a plain reference to pin 14 (column 38):
the hypotheses hold and the flip description applies. -/
theorem galette_c4_flip_witness :
    ((GAL.new Chip.GAL22V10).pin_to_column 14 = Except.ok 38 ∧
      (0 : Nat) < 9) ∧
    (∃ g', (GAL.new Chip.GAL22V10).add_term
        { line_num := 0, pins := [[{ pin := 14, neg := false }]] }
        ⟨1, 9, 0⟩ = .ok g' ∧
      (((GAL.new Chip.GAL22V10).chip = Chip.GAL22V10 →
        ∀ i, (GAL.new Chip.GAL22V10).chip.pin_to_olmc 14 = some i →
          (GAL.new Chip.GAL22V10).ac1
            ((GAL.new Chip.GAL22V10).chip.num_olmcs - 1 - i) = false →
          written_at (GAL.new Chip.GAL22V10) g'
            ((1 + 0) * (GAL.new Chip.GAL22V10).chip.num_cols + 38)
            (1 - (if false then 1 else 0))) ∧
       ((GAL.new Chip.GAL22V10).chip ≠ Chip.GAL22V10 →
         written_at (GAL.new Chip.GAL22V10) g'
           ((1 + 0) * (GAL.new Chip.GAL22V10).chip.num_cols + 38)
           (if false then 1 else 0)) ∧
       ((GAL.new Chip.GAL22V10).chip = Chip.GAL22V10 →
         (GAL.new Chip.GAL22V10).chip.pin_to_olmc 14 = none →
         written_at (GAL.new Chip.GAL22V10) g'
           ((1 + 0) * (GAL.new Chip.GAL22V10).chip.num_cols + 38)
           (if false then 1 else 0)) ∧
       ((GAL.new Chip.GAL22V10).chip = Chip.GAL22V10 →
         ∀ i, (GAL.new Chip.GAL22V10).chip.pin_to_olmc 14 = some i →
           (GAL.new Chip.GAL22V10).ac1
             ((GAL.new Chip.GAL22V10).chip.num_olmcs - 1 - i) = true →
           written_at (GAL.new Chip.GAL22V10) g'
             ((1 + 0) * (GAL.new Chip.GAL22V10).chip.num_cols + 38)
             (if false then 1 else 0)))) :=
  ⟨⟨by decide, by decide⟩,
   galette_c4_flip (GAL.new Chip.GAL22V10) { pin := 14, neg := false }
     ⟨1, 9, 0⟩ 0 38 (by decide) (by decide)⟩

/-- Witness for C5: one product group referencing pin 2 on a fresh
GAL22V10, placed into the 9 rows of OLMC 0 starting at row 1. -/
theorem galette_c5_witness :
    ((0 : Nat) ≤ 9 ∧
     (∀ p ∈ ({ line_num := 3, pins := [[{ pin := 2, neg := false }]] } :
         Term).pins, ∀ q ∈ p,
       ∃ c, (GAL.new Chip.GAL22V10).pin_to_column q.pin = Except.ok c)) ∧
    ((({ line_num := 3, pins := [[{ pin := 2, neg := false }]] } :
        Term).pins.length ≤ 9 - 0 →
      ∃ g', (GAL.new Chip.GAL22V10).add_term
        { line_num := 3, pins := [[{ pin := 2, neg := false }]] }
        ⟨1, 9, 0⟩ = .ok g') ∧
     (9 - 0 < ({ line_num := 3, pins := [[{ pin := 2, neg := false }]] } :
         Term).pins.length →
      (GAL.new Chip.GAL22V10).add_term
        { line_num := 3, pins := [[{ pin := 2, neg := false }]] }
        ⟨1, 9, 0⟩ =
        .error { code := if (9 : Nat) = 0 + 1 then
                           ErrorCode.MoreThanOneProduct
                         else ErrorCode.TooManyProducts,
                 line := 3 })) :=
  ⟨⟨by decide,
    by
      intro p hp q hq
      simp only [List.mem_singleton] at hp
      subst hp
      simp only [List.mem_singleton] at hq
      subst hq
      exact ⟨4, by decide⟩⟩,
   galette_c5_add_term_capacity (GAL.new Chip.GAL22V10)
     { line_num := 3, pins := [[{ pin := 2, neg := false }]] } ⟨1, 9, 0⟩
     (by decide)
     (by
       intro p hp q hq
       simp only [List.mem_singleton] at hp
       subst hp
       simp only [List.mem_singleton] at hq
       subst hq
       exact ⟨4, by decide⟩)⟩

/-- Witness for C6: true_term and false_term placed into the 8 rows
of OLMC 7 of a fresh GAL16V8 (rows 0..7, 32 columns). -/
theorem galette_c6_witness :
    (0 : Nat) < 8 ∧
    ((∃ g', (GAL.new Chip.GAL16V8).add_term (true_term 0) ⟨0, 8, 0⟩ =
        .ok g' ∧
      (∀ c < (GAL.new Chip.GAL16V8).chip.num_cols,
        g'.fuses ((0 + 0) * (GAL.new Chip.GAL16V8).chip.num_cols + c) =
          (GAL.new Chip.GAL16V8).fuses
            ((0 + 0) * (GAL.new Chip.GAL16V8).chip.num_cols + c)) ∧
      (∀ r c, 0 < r → r < 8 → c < (GAL.new Chip.GAL16V8).chip.num_cols →
        g'.fuses ((0 + r) * (GAL.new Chip.GAL16V8).chip.num_cols + c) =
          false)) ∧
     (∃ g'', (GAL.new Chip.GAL16V8).add_term (false_term 0) ⟨0, 8, 0⟩ =
        .ok g'' ∧
      ∀ r c, 0 ≤ r → r < 8 → c < (GAL.new Chip.GAL16V8).chip.num_cols →
        g''.fuses ((0 + r) * (GAL.new Chip.GAL16V8).chip.num_cols + c) =
          false)) :=
  ⟨by decide,
   galette_c6_true_false_term (GAL.new Chip.GAL16V8) ⟨0, 8, 0⟩ 0 (by decide)⟩

/-- C10: for every chip, the per-OLMC row count returned by the chip
catalog is 8, except on the GAL22V10 where OLMC i has row count given
by the table [9, 11, 13, 15, 17, 17, 15, 13, 11, 9], and get_bounds i
returns that count as max_row with row_offset 0 and the table-driven
start row. -/
theorem galette_c10_olmc_rows (c : Chip) (i : Nat) :
    (c = Chip.GAL22V10 →
      c.num_rows_for_olmc i =
        [9, 11, 13, 15, 17, 17, 15, 13, 11, 9].getD i 0) ∧
    (c ≠ Chip.GAL22V10 → c.num_rows_for_olmc i = 8) ∧
    c.get_bounds i =
      { start_row := c.get_chip_data.olmc_map.getD i 0,
        max_row := c.num_rows_for_olmc i,
        row_offset := 0 } := by
  cases c <;>
    simp [Chip.num_rows_for_olmc, Chip.get_bounds, Chip.start_row_for_olmc,
      OLMC_SIZE_22V10, OLMC_SIZE_DEFAULT]

/-- C1: for GAL16V8 and GAL20V8, the mode analysis of get_mode_v8
agrees with the specification's description (Registered if any OLMC
has a registered output; else Complex if any has a tristate output;
else Complex if some OLMC has feedback, no output, and zero-based
index 3 or 4; else Complex if some OLMC has feedback and a
combinatorial output; else Simple), and set_mode encodes the selected
mode as Simple = (syn true, ac0 false), Complex = (syn true, ac0
true), Registered = (syn false, ac0 true). -/
theorem galette_c1_mode_analysis (chip : Chip) (olmcs : Fin 8 → OLMC)
    (g : GAL) (h : chip = Chip.GAL16V8 ∨ chip = Chip.GAL20V8) :
    get_mode_v8 chip olmcs = spec_mode_v8 olmcs ∧
    ((g.set_mode (get_mode_v8 chip olmcs)).syn,
     (g.set_mode (get_mode_v8 chip olmcs)).ac0) =
      mode_fuse_bits (get_mode_v8 chip olmcs) := by
  constructor
  · have hany : ∀ f : Fin 8 → Bool,
        ((List.finRange 8).any f = true) = (∃ n, f n = true) := by
      intro f
      rw [eq_iff_iff, List.any_eq_true]
      constructor
      · rintro ⟨x, _, hx⟩; exact ⟨x, hx⟩
      · rintro ⟨n, hn⟩; exact ⟨n, List.mem_finRange n, hn⟩
    rcases h with rfl | rfl <;>
    · unfold get_mode_v8 spec_mode_v8
      simp only [hany]
      by_cases hA : ∃ n : Fin 8, (olmcs n).output.is_reg_out = true
      · simp [hA]
      · simp only [hA, if_false]
        by_cases hB : ∃ n : Fin 8, (olmcs n).output.is_tri_out = true
        · simp [hB]
        · simp only [hB, if_false]
          by_cases hC : ∃ n : Fin 8, (olmcs n).feedback ∧
              (olmcs n).output = Output.Undriven ∧ (n.val = 3 ∨ n.val = 4)
          · rw [if_pos ?_, if_pos hC]
            obtain ⟨n, hfb, hout, hn⟩ := hC
            refine ⟨n, ?_⟩
            simp [hfb, hout]
            omega
          · rw [if_neg hC]
            by_cases hD : ∃ n : Fin 8, (olmcs n).feedback ∧
                (olmcs n).output.is_com_tri_out
            · rw [if_pos ?_, if_pos hD]
              obtain ⟨n, hfb, hout⟩ := hD
              exact ⟨n, by simp [hfb, hout]⟩
            · rw [if_neg ?_, if_neg hD]
              intro ⟨n, hn⟩
              simp only [Bool.or_eq_true, Bool.and_eq_true,
                decide_eq_true_eq] at hn
              rcases hn with ⟨⟨hfb, hout⟩, hcond⟩ | ⟨hfb, hout⟩
              · refine absurd ?_ hC
                split at hcond <;> simp_all
              · exact absurd ⟨_, hfb, hout⟩ hD
  · cases hm : get_mode_v8 chip olmcs <;>
      simp [GAL.set_mode, mode_fuse_bits]

/-- Witness for C1: a GAL16V8 with all OLMCs undriven and no
feedback. -/
theorem galette_c1_witness :
    (Chip.GAL16V8 = Chip.GAL16V8 ∨ Chip.GAL16V8 = Chip.GAL20V8) ∧
    (get_mode_v8 Chip.GAL16V8
        (fun _ => { output := Output.Undriven, feedback := false }) =
      spec_mode_v8
        (fun _ => { output := Output.Undriven, feedback := false }) ∧
     (((GAL.new Chip.GAL16V8).set_mode (get_mode_v8 Chip.GAL16V8
         (fun _ => { output := Output.Undriven, feedback := false }))).syn,
      ((GAL.new Chip.GAL16V8).set_mode (get_mode_v8 Chip.GAL16V8
         (fun _ => { output := Output.Undriven, feedback := false }))).ac0) =
       mode_fuse_bits (get_mode_v8 Chip.GAL16V8
         (fun _ => { output := Output.Undriven, feedback := false }))) :=
  ⟨Or.inl rfl,
   galette_c1_mode_analysis Chip.GAL16V8
     (fun _ => { output := Output.Undriven, feedback := false })
     (GAL.new Chip.GAL16V8) (Or.inl rfl)⟩

/-- Counterexample for C8: the equation O12 = /VCC * A2 on a GAL16V8
references VCC (pin 20) negated on its right-hand side, yet
eqn_to_term does not fail with InvertedPower — it succeeds (the
constant shorthand only applies to a single-pin right-hand side); the
compilation then fails later, in add_term, with BadPower instead. -/
theorem galette_c8_counterexample :
    eqn_to_term Chip.GAL16V8 c8_eqn =
      .ok { line_num := 7,
            pins := [[{ pin := 20, neg := true },
                      { pin := 2, neg := false }]] } ∧
    error_of (c8_gal.add_term
      { line_num := 7,
        pins := [[{ pin := 20, neg := true }, { pin := 2, neg := false }]] }
      { start_row := 0, max_row := 8, row_offset := 0 }) =
      some { code := ErrorCode.BadPower, line := 7 } := by
  constructor
  · decide
  · decide

/-- C8 (amended): an equation whose right-hand side is exactly one
pin reference naming VCC (pin num_pins) or GND (pin num_pins / 2)
with negation fails in eqn_to_term with InvertedPower.  (A negated
power pin inside a longer right-hand side is not rejected by
eqn_to_term; it surfaces later as BadPower from the pin-to-column
tables.) -/
theorem galette_c8_inverted_power (chip : Chip) (eqn : Equation)
    (pin : Pin) (hrhs : eqn.rhs = [pin])
    (hpow : pin.pin = chip.num_pins ∨ pin.pin = chip.num_pins / 2)
    (hneg : pin.neg = true) :
    eqn_to_term chip eqn = .error .InvertedPower := by
  unfold eqn_to_term
  rw [hrhs]
  rcases hpow with hp | hp
  · simp [hp, hneg]
  · rcases eq_or_ne pin.pin chip.num_pins with hv | hv
    · simp [hv, hneg]
    · dsimp only
      rw [if_neg hv, if_pos hp, if_pos hneg]

/-- Witness for C8 (amended): the equation O12 = /VCC on a GAL16V8. -/
theorem galette_c8_witness :
    (({ line_num := 4, lhs := LHS.Pin { pin := 12, neg := false } Suffix.None,
        rhs := [{ pin := 20, neg := true }], is_or := [false] } :
       Equation).rhs = [{ pin := 20, neg := true }] ∧
     ((20 : Nat) = Chip.GAL16V8.num_pins ∨
      (20 : Nat) = Chip.GAL16V8.num_pins / 2) ∧
     ({ pin := 20, neg := true } : Pin).neg = true) ∧
    eqn_to_term Chip.GAL16V8
      { line_num := 4, lhs := LHS.Pin { pin := 12, neg := false } Suffix.None,
        rhs := [{ pin := 20, neg := true }], is_or := [false] } =
      .error .InvertedPower :=
  ⟨⟨rfl, Or.inl (by decide), rfl⟩,
   galette_c8_inverted_power Chip.GAL16V8
     { line_num := 4, lhs := LHS.Pin { pin := 12, neg := false } Suffix.None,
       rhs := [{ pin := 20, neg := true }], is_or := [false] }
     { pin := 20, neg := true } rfl (Or.inl (by decide)) rfl⟩

/-- Counterexample for C9: a GAL20V8 pin row whose twelfth name (pin
position 12 = num_pins / 2, the GND position) is VCC.  VCC appears at
a position other than num_pins (12 ≠ 24), yet extend_pin_map fails
with InvalidPowerPinName for GND — the positional check on pin
num_pins / 2 fires before the VCC-location check — not with
InvalidPowerPinLocation as the claim states. -/
theorem galette_c9_counterexample :
    (c9_pins.getD 11 ("", false) = ("VCC", false) ∧
     (12 : Nat) ≠ Chip.GAL20V8.num_pins) ∧
    extend_pin_map [] Chip.GAL20V8 0 c9_pins =
      .error (.InvalidPowerPinName 12 "GND") := by
  constructor
  · constructor
    · decide
    · decide
  · decide

/-- C9 (amended): the power-pin checks of extend_pin_map, applied to
the first pin of the remaining row at position pin_num, behave as
follows — the positional checks come first: at position num_pins
anything but an unnegated VCC fails InvalidPowerPinName (VCC), at
position num_pins / 2 anything but an unnegated GND fails
InvalidPowerPinName (GND) (including a misplaced VCC, which is why
the original claim fails there); away from both power positions, a
pin named VCC fails InvalidPowerPinLocation (VCC, num_pins) and a pin
named GND fails InvalidPowerPinLocation (GND, num_pins / 2). -/
theorem galette_c9_power_pin_checks (chip : Chip) (m : PinMap)
    (pin_num : Nat) (name : String) (neg : Bool)
    (rest : List (String × Bool)) :
    (pin_num = chip.num_pins → ¬(name = "VCC" ∧ neg = false) →
      extend_pin_map_go chip m pin_num ((name, neg) :: rest) =
        .error (.InvalidPowerPinName pin_num "VCC")) ∧
    (pin_num ≠ chip.num_pins → pin_num = chip.num_pins / 2 →
      ¬(name = "GND" ∧ neg = false) →
      extend_pin_map_go chip m pin_num ((name, neg) :: rest) =
        .error (.InvalidPowerPinName pin_num "GND")) ∧
    (name = "VCC" → pin_num ≠ chip.num_pins → pin_num ≠ chip.num_pins / 2 →
      extend_pin_map_go chip m pin_num ((name, neg) :: rest) =
        .error (.InvalidPowerPinLocation pin_num "VCC" chip.num_pins)) ∧
    (name = "GND" → pin_num ≠ chip.num_pins → pin_num ≠ chip.num_pins / 2 →
      extend_pin_map_go chip m pin_num ((name, neg) :: rest) =
        .error (.InvalidPowerPinLocation pin_num "GND"
          (chip.num_pins / 2))) := by
  refine ⟨?_, ?_, ?_, ?_⟩
  · intro h1 h2
    rw [extend_pin_map_go, if_pos ⟨h1, h2⟩]
  · intro h1 h2 h3
    rw [extend_pin_map_go, if_neg (by tauto), if_pos ⟨h2, h3⟩]
  · intro hn h1 h2
    rw [extend_pin_map_go, if_neg (by tauto),
      if_neg (by rintro ⟨ha, _⟩; exact h2 ha),
      if_pos ⟨hn, h1⟩]
  · intro hn h1 h2
    rw [extend_pin_map_go, if_neg (by tauto),
      if_neg (by rintro ⟨ha, _⟩; exact h2 ha),
      if_neg (by
        rintro ⟨hvcc, _⟩
        rw [hn] at hvcc
        exact absurd hvcc (by decide)),
      if_pos ⟨hn, h2⟩]

/-- Witness for C9 (amended): VCC defined at pin 5 of a GAL20V8. -/
theorem galette_c9_witness :
    ("VCC" = "VCC" ∧ (5 : Nat) ≠ Chip.GAL20V8.num_pins ∧
     (5 : Nat) ≠ Chip.GAL20V8.num_pins / 2) ∧
    extend_pin_map_go Chip.GAL20V8 [] 5 [("VCC", false)] =
      .error (.InvalidPowerPinLocation 5 "VCC" Chip.GAL20V8.num_pins) :=
  ⟨⟨rfl, by decide, by decide⟩,
   (galette_c9_power_pin_checks Chip.GAL20V8 [] 5 "VCC" false []).2.2.1
     rfl (by decide) (by decide)⟩

/-- pin_to_column only depends on the chip and the mode bits. -/
theorem gal_congr_pin_to_column (g g' : GAL) (hc : g'.chip = g.chip)
    (hs : g'.syn = g.syn) (h0 : g'.ac0 = g.ac0) (p : Nat) :
    g'.pin_to_column p = g.pin_to_column p := by
  unfold GAL.pin_to_column GAL.column_lookup GAL.get_mode
  rw [hc, hs, h0]

/-- needs_flip only depends on the chip and the ac1 bits. -/
theorem gal_congr_needs_flip (g g' : GAL) (hc : g'.chip = g.chip)
    (ha : g'.ac1 = g.ac1) (p : Nat) :
    g'.needs_flip p = g.needs_flip p := by
  unfold GAL.needs_flip
  rw [hc, ha]

/-- The add_term row loop preserves chip, ac1, syn and ac0. -/
theorem add_term_go_fields (rows : List (List Pin)) (g : GAL)
    (line : Nat) (single_row : Bool) (start_row max_row row_offset : Nat)
    (g' : GAL) (off : Nat)
    (h : g.add_term_go line single_row start_row max_row row_offset rows =
      .ok (g', off)) :
    g'.chip = g.chip ∧ g'.ac1 = g.ac1 ∧ g'.syn = g.syn ∧ g'.ac0 = g.ac0 := by
  induction rows generalizing g row_offset with
  | nil =>
    rw [GAL.add_term_go] at h
    cases h
    exact ⟨rfl, rfl, rfl, rfl⟩
  | cons p rest ih =>
    rw [GAL.add_term_go] at h
    by_cases hoff : row_offset = max_row
    · rw [if_pos hoff] at h
      cases h
    · rw [if_neg hoff] at h
      rcases h1 : g.set_and_row line (start_row + row_offset) p with e | g1
      · rw [h1] at h; cases h
      · rw [h1] at h
        obtain ⟨hc1, ha1, hs1, h01, _⟩ := set_and_row_ok g line _ p g1 h1
        obtain ⟨hc2, ha2, hs2, h02⟩ := ih g1 (row_offset + 1) h
        exact ⟨hc2.trans hc1, ha2.trans ha1, hs2.trans hs1, h02.trans h01⟩

/-- add_term preserves chip, ac1, syn and ac0. -/
theorem add_term_fields (g : GAL) (t : Term) (b : Bounds) (g' : GAL)
    (h : g.add_term t b = .ok g') :
    g'.chip = g.chip ∧ g'.ac1 = g.ac1 ∧ g'.syn = g.syn ∧ g'.ac0 = g.ac0 := by
  unfold GAL.add_term at h
  rcases h1 : g.add_term_go t.line_num
      (decide (b.max_row = b.row_offset + 1)) b.start_row b.max_row
      b.row_offset t.pins with e | ⟨g1, off⟩
  · rw [h1] at h; cases h
  · rw [h1] at h
    simp only at h
    cases h
    exact add_term_go_fields t.pins g _ _ _ _ _ g1 off h1

/-- Writing one optional term into a single-row slot of a GAL22V10:
the slot's row takes exactly the row_content description, everything
outside the row is untouched, and the non-fuse fields survive. -/
theorem add_term_opt_single_row (g : GAL) (t : Option Term) (s : Nat)
    (h22 : g.chip = Chip.GAL22V10) (ht : single_product_ok g t) :
    ∃ g', g.add_term_opt t ⟨s, 1, 0⟩ = .ok g' ∧
      (∀ c < 44, g'.fuses (s * 44 + c) = row_content g t (s * 44) c) ∧
      (∀ j, j < s * 44 ∨ (s + 1) * 44 ≤ j → g'.fuses j = g.fuses j) ∧
      g'.chip = g.chip ∧ g'.ac1 = g.ac1 ∧ g'.syn = g.syn ∧ g'.ac0 = g.ac0 := by
  have hnc : g.chip.num_cols = 44 := by rw [h22]; rfl
  -- the false-term case is shared by t = none and pins = [].
  have hfalse : ∀ line, ∃ g',
      g.add_term { line_num := line, pins := [] } ⟨s, 1, 0⟩ = .ok g' ∧
      (∀ c < 44, g'.fuses (s * 44 + c) = false) ∧
      (∀ j, j < s * 44 ∨ (s + 1) * 44 ≤ j → g'.fuses j = g.fuses j) ∧
      g'.chip = g.chip ∧ g'.ac1 = g.ac1 ∧ g'.syn = g.syn ∧ g'.ac0 = g.ac0 := by
    intro line
    refine ⟨g.clear_rows ⟨s, 1, 0⟩, ?_, ?_, ?_, rfl, rfl, rfl, rfl⟩
    · unfold GAL.add_term
      rfl
    · intro c hc
      unfold GAL.clear_rows
      simp only [hnc]
      rw [if_pos]
      constructor
      · omega
      · have : (s + 1) * 44 = s * 44 + 44 := by ring
        omega
    · intro j hj
      unfold GAL.clear_rows
      simp only [hnc]
      rw [if_neg]
      intro ⟨hlo, hhi⟩
      have : (s + 1) * 44 = s * 44 + 44 := by ring
      omega
  match t with
  | none =>
    obtain ⟨g', hg⟩ := hfalse 0
    exact ⟨g', hg.1, fun c hc => by
        rw [hg.2.1 c hc]; rfl,
      hg.2.2.1, hg.2.2.2⟩
  | some tt =>
    obtain ⟨ln, pins⟩ := tt
    rcases ht with hpins0 | ⟨p, hp, hcols⟩
    · simp only at hpins0
      subst hpins0
      obtain ⟨g', hg⟩ := hfalse ln
      exact ⟨g', hg.1, fun c hc => by rw [hg.2.1 c hc]; rfl,
        hg.2.2.1, hg.2.2.2⟩
    · simp only at hp
      subst hp
      obtain ⟨g', heq, hclears, hmisses, _⟩ :=
        add_term_single_product g p ⟨s, 1, 0⟩ ln Nat.zero_lt_one
          (fun q hq => ⟨(hcols q hq).choose, (hcols q hq).choose_spec.1⟩)
      have hbase : (s + 0) * g.chip.num_cols = s * 44 := by rw [hnc]; ring
      -- the second part of hmisses' guard is vacuous on a 1-row slot
      have hmiss' : ∀ j, (∀ q ∈ p, ∀ cq,
          g.pin_to_column q.pin = .ok cq →
          j ≠ s * 44 + cq +
            (if q.neg ^^ g.needs_flip q.pin then 1 else 0)) →
          g'.fuses j = g.fuses j := by
        intro j hj
        apply hmisses
        · intro q hq cq hcq
          rw [show (⟨s, 1, 0⟩ : Bounds).start_row +
              (⟨s, 1, 0⟩ : Bounds).row_offset = s + 0 from rfl, hbase]
          exact hj q hq cq hcq
        · intro hcontra
          dsimp only at hcontra
          obtain ⟨h1, h2⟩ := hcontra
          have heqm : (s + (0 + 1)) * g.chip.num_cols =
              (s + 1) * g.chip.num_cols := by ring_nf
          omega
      -- the cleared fuses, rebased to s * 44
      have hclear' : ∀ q ∈ p, ∀ cq, g.pin_to_column q.pin = .ok cq →
          g'.fuses (s * 44 + cq +
            (if q.neg ^^ g.needs_flip q.pin then 1 else 0)) = false := by
        intro q hq cq hcq
        have := hclears q hq cq hcq
        rw [show (⟨s, 1, 0⟩ : Bounds).start_row +
            (⟨s, 1, 0⟩ : Bounds).row_offset = s + 0 from rfl, hbase] at this
        exact this
      have hfields := add_term_fields g ⟨ln, [p]⟩ ⟨s, 1, 0⟩ g' heq
      refine ⟨g', heq, ?_, ?_, hfields⟩
      · intro c hc
        show g'.fuses (s * 44 + c) =
          if clears_at g p c then false else g.fuses (s * 44 + c)
        rcases hca : clears_at g p c with _ | _
        -- not cleared: the fuse keeps its value
        · rw [if_neg (by simp)]
          unfold clears_at at hca
          apply hmiss'
          intro q hq cq hcq
          have hqf := List.any_eq_false.mp hca q hq
          rw [hcq] at hqf
          dsimp only at hqf
          simp only [decide_eq_true_eq] at hqf
          omega
        -- cleared by some pin of the product group
        · rw [if_pos rfl]
          unfold clears_at at hca
          obtain ⟨q, hq, hqt⟩ := List.any_eq_true.mp hca
          rcases hpc : g.pin_to_column q.pin with e | col
          · rw [hpc] at hqt
            dsimp only at hqt
            cases hqt
          · rw [hpc] at hqt
            dsimp only at hqt
            simp only [decide_eq_true_eq] at hqt
            rw [show s * 44 + c = s * 44 + col +
                (if q.neg ^^ g.needs_flip q.pin then 1 else 0) from by omega]
            exact hclear' q hq col hpc
      · intro j hj
        apply hmiss'
        intro q hq cq hcq
        obtain ⟨col, hcol, hbound⟩ := hcols q hq
        rw [hcol] at hcq
        have hcc := Except.ok.inj hcq
        subst hcc
        have hoffle : (if q.neg ^^ g.needs_flip q.pin then (1 : Nat)
            else 0) ≤ 1 := by split <;> omega
        have h44 : (s + 1) * 44 = s * 44 + 44 := by ring
        omega

/-- clears_at only depends on the chip, mode bits and ac1 bits. -/
theorem clears_at_congr (g g1 : GAL) (hc : g1.chip = g.chip)
    (ha : g1.ac1 = g.ac1) (hs : g1.syn = g.syn) (h0 : g1.ac0 = g.ac0)
    (p : List Pin) (c : Nat) :
    clears_at g1 p c = clears_at g p c := by
  unfold clears_at
  congr 1
  funext q
  rw [gal_congr_pin_to_column g g1 hc hs h0, gal_congr_needs_flip g g1 hc ha]

/-- single_product_ok transfers along field-preserving state changes. -/
theorem single_product_ok_congr (g g1 : GAL) (hc : g1.chip = g.chip)
    (hs : g1.syn = g.syn) (h0 : g1.ac0 = g.ac0) (t : Option Term)
    (ht : single_product_ok g t) : single_product_ok g1 t := by
  cases t with
  | none => trivial
  | some tt =>
    rcases ht with hnil | ⟨p, hp, hcols⟩
    · exact Or.inl hnil
    · refine Or.inr ⟨p, hp, fun q hq => ?_⟩
      obtain ⟨col, hcol, hb⟩ := hcols q hq
      exact ⟨col, by rw [gal_congr_pin_to_column g g1 hc hs h0]; exact hcol,
        hb⟩

/-- C7: on the GAL22V10, the fuse-map builder writes the blueprint's
AR term (or false_term if no AR equation was given) into row 0 of the
main fuse array, and the SP term (or false_term) into row 131; rows in
between and beyond are untouched.  The AR/SP placement step is
modelled from the spec (see build_ar_sp). -/
theorem galette_c7_ar_sp (g : GAL) (ar sp : Option Term)
    (h22 : g.chip = Chip.GAL22V10)
    (har : single_product_ok g ar) (hsp : single_product_ok g sp) :
    ∃ g2, build_ar_sp g ar sp = .ok g2 ∧
      (∀ c < 44, g2.fuses c = row_content g ar 0 c) ∧
      (∀ c < 44, g2.fuses (131 * 44 + c) = row_content g sp (131 * 44) c) ∧
      (∀ j, (44 ≤ j ∧ j < 131 * 44) ∨ 132 * 44 ≤ j →
        g2.fuses j = g.fuses j) := by
  obtain ⟨g1, h1eq, h1row, h1out, h1c, h1a, h1s, h10⟩ :=
    add_term_opt_single_row g ar 0 h22 har
  have h22' : g1.chip = Chip.GAL22V10 := h1c.trans h22
  obtain ⟨g2, h2eq, h2row, h2out, h2c, h2a, h2s, h20⟩ :=
    add_term_opt_single_row g1 sp 131 h22'
      (single_product_ok_congr g g1 h1c h1s h10 sp hsp)
  refine ⟨g2, ?_, ?_, ?_, ?_⟩
  · unfold build_ar_sp
    rw [h1eq]
    exact h2eq
  · intro c hc
    have hstep2 : g2.fuses c = g1.fuses c :=
      h2out c (Or.inl (by omega))
    have hstep1 := h1row c hc
    rw [Nat.zero_mul, Nat.zero_add] at hstep1
    rw [hstep2, hstep1]
  · intro c hc
    have hstep2 := h2row c hc
    rw [hstep2]
    -- row_content over g1 equals row_content over g for the SP row
    cases sp with
    | none => rfl
    | some tt =>
      obtain ⟨ln, pins⟩ := tt
      rcases pins with _ | ⟨p, rest⟩
      · rfl
      · rcases rest with _ | _
        · show (if clears_at g1 p c then false
              else g1.fuses (131 * 44 + c)) =
            (if clears_at g p c then false else g.fuses (131 * 44 + c))
          rw [clears_at_congr g g1 h1c h1a h1s h10 p c,
            h1out (131 * 44 + c) (Or.inr (by omega))]
        · rfl
  · intro j hj
    have hstep2 : g2.fuses j = g1.fuses j := by
      apply h2out
      rcases hj with ⟨_, hj2⟩ | hj2
      · exact Or.inl (by omega)
      · exact Or.inr (by omega)
    have hstep1 : g1.fuses j = g.fuses j := by
      apply h1out
      rcases hj with ⟨hj1, _⟩ | hj1
      · exact Or.inr (by omega)
      · exact Or.inr (by omega)
    rw [hstep2, hstep1]

/-- Witness for C7: a fresh GAL22V10 with AR = A2 (a single product
group referencing pin 2) and no SP equation. -/
theorem galette_c7_witness :
    ((GAL.new Chip.GAL22V10).chip = Chip.GAL22V10 ∧
     single_product_ok (GAL.new Chip.GAL22V10)
       (some { line_num := 1, pins := [[{ pin := 2, neg := false }]] }) ∧
     single_product_ok (GAL.new Chip.GAL22V10) none) ∧
    (∃ g2, build_ar_sp (GAL.new Chip.GAL22V10)
        (some { line_num := 1, pins := [[{ pin := 2, neg := false }]] })
        none = .ok g2 ∧
      (∀ c < 44, g2.fuses c = row_content (GAL.new Chip.GAL22V10)
        (some { line_num := 1, pins := [[{ pin := 2, neg := false }]] })
        0 c) ∧
      (∀ c < 44, g2.fuses (131 * 44 + c) =
        row_content (GAL.new Chip.GAL22V10) none (131 * 44) c) ∧
      (∀ j, (44 ≤ j ∧ j < 131 * 44) ∨ 132 * 44 ≤ j →
        g2.fuses j = (GAL.new Chip.GAL22V10).fuses j)) :=
  have har : single_product_ok (GAL.new Chip.GAL22V10)
      (some { line_num := 1, pins := [[{ pin := 2, neg := false }]] }) :=
    Or.inr ⟨[{ pin := 2, neg := false }], rfl, fun q hq => by
      simp only [List.mem_singleton] at hq
      subst hq
      exact ⟨4, by decide, by decide⟩⟩
  ⟨⟨rfl, har, trivial⟩,
   galette_c7_ar_sp (GAL.new Chip.GAL22V10)
     (some { line_num := 1, pins := [[{ pin := 2, neg := false }]] })
     none rfl har trivial⟩

/-- Folding addition from an arbitrary accumulator. -/
theorem foldl_add_shift (a : Nat) (l : List Nat) :
    l.foldl (· + ·) a = a + l.foldl (· + ·) 0 := by
  induction l generalizing a with
  | nil => simp
  | cons x xs ih =>
    simp only [List.foldl_cons]
    rw [ih (a + x), ih (0 + x)]
    omega

/-- Sum of a cons. -/
theorem list_sum_cons (x : Nat) (l : List Nat) :
    list_sum (x :: l) = x + list_sum l := by
  unfold list_sum
  simp only [List.foldl_cons]
  rw [foldl_add_shift]
  omega

/-- Sum of an append. -/
theorem list_sum_append (l1 l2 : List Nat) :
    list_sum (l1 ++ l2) = list_sum l1 + list_sum l2 := by
  unfold list_sum
  rw [List.foldl_append, foldl_add_shift]

/-- byte_val is bounded by 2 to the number of bits. -/
theorem byte_val_lt (l : List Bool) : byte_val l < 2 ^ l.length := by
  induction l with
  | nil => simp [byte_val]
  | cons b bs ih =>
    simp only [byte_val, List.length_cons, pow_succ]
    cases b <;> simp <;> omega

/-- Appending one bit to a little-endian byte adds its place value. -/
theorem byte_val_append (l : List Bool) (b : Bool) :
    byte_val (l ++ [b]) = byte_val l + (if b then 2 ^ l.length else 0) := by
  induction l with
  | nil => cases b <;> simp [byte_val]
  | cons x xs ih =>
    rw [List.cons_append,
      show byte_val (x :: (xs ++ [b])) =
        (if x then 1 else 0) + 2 * byte_val (xs ++ [b]) from rfl,
      ih,
      show byte_val (x :: xs) =
        (if x then 1 else 0) + 2 * byte_val xs from rfl,
      List.length_cons, pow_succ]
    cases b
    · simp
    · simp
      ring

/-- Setting a bit above all set bits is addition. -/
theorem lor_two_pow_of_lt {a i : Nat} (h : a < 2 ^ i) :
    a ||| 2 ^ i = a + 2 ^ i := by
  apply Nat.eq_of_testBit_eq
  intro k
  rw [Nat.testBit_or]
  rcases lt_trichotomy k i with hk | hk | hk
  · rw [Nat.add_comm, Nat.testBit_two_pow_add_gt hk,
      Nat.testBit_two_pow_of_ne (by omega), Bool.or_false]
  · subst hk
    rw [Nat.add_comm, Nat.testBit_two_pow_add_eq, Nat.testBit_two_pow_self,
      Nat.testBit_lt_two_pow h, Bool.false_or]
    rfl
  · have h1 : a + 2 ^ i < 2 ^ k := by
      have hle : 2 ^ (i + 1) ≤ 2 ^ k := Nat.pow_le_pow_right (by norm_num) hk
      have hp := Nat.pow_succ 2 i
      omega
    rw [Nat.testBit_lt_two_pow h1, Nat.testBit_lt_two_pow (by
      calc a < 2 ^ i := h
        _ ≤ 2 ^ k := Nat.pow_le_pow_right (by norm_num) (le_of_lt hk)),
      Nat.testBit_two_pow_of_ne (by omega), Bool.or_false]

/-- One step of the checksummer packs one more bit into the pending
byte. -/
theorem checksummer_add_step (pending : List Bool) (s : Nat) (b : Bool) :
    CheckSummer.add
        { bit_num := pending.length, byte := byte_val pending,
          sum := s % 65536 } b =
      (if pending.length + 1 = 8 then
        { bit_num := 0, byte := 0,
          sum := (s + byte_val (pending ++ [b])) % 65536 }
      else
        { bit_num := (pending ++ [b]).length,
          byte := byte_val (pending ++ [b]), sum := s % 65536 }) := by
  unfold CheckSummer.add
  simp only
  have hbyte : (if b = true then
      byte_val pending ||| 1 <<< pending.length else byte_val pending) =
      byte_val (pending ++ [b]) := by
    rw [byte_val_append]
    cases b
    · simp
    · simp only [if_pos rfl]
      rw [Nat.shiftLeft_eq, one_mul]
      exact lor_two_pow_of_lt (byte_val_lt pending)
  rw [hbyte]
  by_cases h8 : pending.length + 1 = 8
  · rw [if_pos h8, if_pos h8]
    have : (s % 65536 + byte_val (pending ++ [b])) % 65536 =
        (s + byte_val (pending ++ [b])) % 65536 := by omega
    rw [this]
  · rw [if_neg h8, if_neg h8]
    simp [List.length_append]

/-- Core checksum lemma: folding the checksummer over a bit stream,
starting from a pending partial byte, computes the 16-bit wrapping
sum of the packed bytes. -/
theorem checksummer_fold (bits pending : List Bool) (s : Nat)
    (hlen : pending.length < 8) :
    (bits.foldl CheckSummer.add
      { bit_num := pending.length, byte := byte_val pending,
        sum := s % 65536 }).get =
      (s + list_sum (pack_bytes (pending ++ bits))) % 65536 := by
  induction bits generalizing pending s with
  | nil =>
    simp only [List.foldl_nil, List.append_nil]
    unfold CheckSummer.get
    simp only
    rcases pending with _ | ⟨p, ps⟩
    · simp only [pack_bytes]
      rw [show byte_val [] = 0 from rfl, show list_sum [] = 0 from rfl]
      omega
    · have hle : (p :: ps).length ≤ 8 := Nat.le_of_lt hlen
      have hps : pack_bytes (p :: ps) = [byte_val (p :: ps)] := by
        simp only [pack_bytes]
        rw [List.drop_eq_nil_of_le hle, List.take_of_length_le hle]
        simp only [pack_bytes]
      rw [hps, show list_sum [byte_val (p :: ps)] =
        0 + byte_val (p :: ps) from rfl]
      have hbv := byte_val_lt (p :: ps)
      have hb8 : (2 : Nat) ^ (p :: ps).length ≤ 2 ^ 8 :=
        Nat.pow_le_pow_right (by norm_num) hle
      have h28 : (2 : Nat) ^ 8 = 256 := by norm_num
      omega
  | cons b rest ih =>
    rw [List.foldl_cons, checksummer_add_step pending s b]
    by_cases h8 : pending.length + 1 = 8
    · rw [if_pos h8]
      have hih := ih [] (s + byte_val (pending ++ [b])) (by simp)
      rw [show byte_val ([] : List Bool) = 0 from rfl,
        show (([] : List Bool)).length = 0 from rfl,
        List.nil_append] at hih
      rw [hih]
      have hlen8 : (pending ++ [b]).length = 8 := by
        simp only [List.length_append, List.length_singleton]
        omega
      have hsplit : pack_bytes (pending ++ b :: rest) =
          byte_val (pending ++ [b]) :: pack_bytes rest := by
        have hflat : pending ++ b :: rest = (pending ++ [b]) ++ rest := by
          simp
        have htake : (pending ++ b :: rest).take 8 = pending ++ [b] := by
          rw [hflat, List.take_append_eq_append_take, hlen8,
            List.take_of_length_le (le_of_eq hlen8)]
          simp
        have hdrop : (pending ++ b :: rest).drop 8 = rest := by
          rw [hflat, List.drop_append_eq_append_drop, hlen8,
            List.drop_of_length_le (le_of_eq hlen8)]
          simp
        rcases hcons : pending ++ b :: rest with _ | ⟨x, xs⟩
        · exact absurd hcons (by cases pending <;> simp)
        · rw [hcons] at htake hdrop
          simp only [pack_bytes]
          rw [htake, hdrop]
      rw [hsplit, list_sum_cons]
      omega
    · rw [if_neg h8]
      rw [ih (pending ++ [b]) s (by
        simp only [List.length_append, List.length_singleton]
        omega)]
      rw [show (pending ++ [b]) ++ rest = pending ++ b :: rest from by simp]

/-- The checksum component of the row fold feeds every bit of every
row, written or skipped, in order. -/
theorem rows_fold_checksum (rows : List (List Bool)) (fb : FuseBuilder) :
    (rows.foldl (fun fb row =>
        if row.any (fun b => b) then fb.add_iter row else fb.skip_iter row)
      fb).checksum =
      rows.flatten.foldl CheckSummer.add fb.checksum := by
  induction rows generalizing fb with
  | nil => rfl
  | cons r rs ih =>
    rw [List.foldl_cons, List.flatten_cons, List.foldl_append, ih]
    by_cases h : r.any (fun b => b) <;>
      simp [h, FuseBuilder.add_iter, FuseBuilder.skip_iter]

/-- Joining the chunks gives back the original list (the fuel is at
least the list length and chunks are nonempty). -/
theorem chunks_join (rl : Nat) (hrl : 0 < rl) :
    ∀ (fuel : Nat) (l : List Bool), l.length ≤ fuel →
      (chunks_go rl fuel l).flatten = l := by
  intro fuel
  induction fuel with
  | zero =>
    intro l hl
    have hnil : l = [] := List.eq_nil_of_length_eq_zero (Nat.le_zero.mp hl)
    subst hnil
    rfl
  | succ f ih =>
    intro l hl
    rcases l with _ | ⟨x, xs⟩
    · rfl
    · rw [chunks_go, List.flatten_cons]
      rw [ih ((x :: xs).drop rl) (by
        rw [List.length_drop]
        simp only [List.length_cons] at hl ⊢
        omega)]
      exact List.take_append_drop rl (x :: xs)

/-- The fuse-section checksum state is the checksummer folded over the
emitted bits in emission order. -/
theorem fuse_section_checksum (inp : JedecInput) :
    (fuse_section inp).checksum =
      (emission_bits inp).foldl CheckSummer.add CheckSummer.new := by
  obtain ⟨gt, sb, fus, xr, s1, sg, a1, pt, sy, a0⟩ := inp
  have hmatrix : (fuse_matrix_fb ⟨gt, sb, fus, xr, s1, sg, a1, pt, sy, a0⟩).checksum =
      fus.foldl CheckSummer.add CheckSummer.new := by
    unfold fuse_matrix_fb
    rw [rows_fold_checksum]
    rw [chunks_join (jedec_row_len gt) (by cases gt <;> decide) _ _ le_rfl]
    rfl
  cases gt <;>
    simp [fuse_section, xor_fb, emission_bits, FuseBuilder.add_iter,
      List.foldl_append, hmatrix]

/-- The fuse-section checksum read out by get is the 16-bit wrapping
sum of the little-endian packed bytes of the emitted bits. -/
theorem fuse_section_get (inp : JedecInput) :
    (fuse_section inp).checksum.get =
      list_sum (pack_bytes (emission_bits inp)) % 65536 := by
  rw [fuse_section_checksum]
  have := checksummer_fold (emission_bits inp) [] 0 (by simp)
  rw [show byte_val ([] : List Bool) = 0 from rfl,
    show (([] : List Bool)).length = 0 from rfl,
    show (0 : Nat) % 65536 = 0 from rfl, List.nil_append] at this
  rw [show CheckSummer.new = { bit_num := 0, byte := 0, sum := 0 } from
    rfl, this]
  omega

/-- Decomposition of the body of the JEDEC file around the *C line,
with the checksum value written out as the packed-byte sum. -/
theorem jedec_body_eq (inp : JedecInput) :
    jedec_body inp =
      jedec_header inp ++ (fuse_section inp).buf ++ ascii "*C" ++
        fmt_hex4 (list_sum (pack_bytes (emission_bits inp)) % 65536) ++ [10] ++
        (ascii "*\n" ++ [3]) := by
  unfold jedec_body FuseBuilder.checksum_line
  rw [fuse_section_get]
  simp [List.append_assoc]

/-- C2: for every assembled GAL bit-state, the value the JEDEC writer
prints after *C equals the 16-bit wrapping sum of the bytes formed by
packing the emitted fuse/xor/sig/ac1/pt/syn/ac0 bits little-endian
within each byte, in emission order. -/
theorem galette_c2_fuse_checksum (inp : JedecInput) :
    (fuse_section inp).checksum.get =
      list_sum (pack_bytes (emission_bits inp)) % 65536 ∧
    ∃ pre post, make_jedec inp =
      pre ++ ascii "*C" ++
        fmt_hex4 (list_sum (pack_bytes (emission_bits inp)) % 65536) ++
        [10] ++ post := by
  refine ⟨fuse_section_get inp, jedec_header inp ++ (fuse_section inp).buf,
    ascii "*\n" ++ [3] ++
      fmt_hex4 (list_sum (jedec_body inp) % 4294967296) ++ [10], ?_⟩
  unfold make_jedec
  rw [jedec_body_eq]
  simp [List.append_assoc]

/-- Sum of a constant list. -/
theorem list_sum_replicate (k c : Nat) :
    list_sum (List.replicate k c) = k * c := by
  induction k with
  | zero => rw [Nat.zero_mul]; rfl
  | succ n ih =>
    rw [List.replicate_succ', list_sum_append, ih]
    show n * c + (0 + c) = (n + 1) * c
    rw [Nat.succ_mul]
    omega

/-- Sum of a flattened list of lists is the sum of the sums. -/
theorem list_sum_flatten (L : List (List Nat)) :
    list_sum L.flatten = list_sum (L.map list_sum) := by
  induction L with
  | nil => rfl
  | cons x xs ih =>
    rw [List.flatten_cons, list_sum_append, List.map_cons, list_sum_cons, ih]

/-- Chunking a constant list whose length is a multiple of the row
length yields that many full constant rows. -/
theorem chunks_replicate (rl : Nat) (hrl : 0 < rl) (b : Bool) :
    ∀ (k fuel : Nat), rl * k ≤ fuel →
      chunks_go rl fuel (List.replicate (rl * k) b) =
        List.replicate k (List.replicate rl b) := by
  intro k
  induction k with
  | zero =>
    intro fuel _
    show chunks_go rl fuel [] = []
    cases fuel <;> rfl
  | succ n ih =>
    intro fuel hle
    have hmul : rl * (n + 1) = rl * n + rl := by ring
    rcases fuel with _ | f
    · omega
    cases hx : List.replicate (rl * (n + 1)) b with
    | nil =>
      have := congrArg List.length hx
      simp only [List.length_replicate, List.length_nil] at this
      omega
    | cons x xs =>
      simp only [chunks_go]
      rw [← hx, List.take_replicate, List.drop_replicate]
      have h1 : min rl (rl * (n + 1)) = rl := by omega
      have h2 : rl * (n + 1) - rl = rl * n := by omega
      rw [h1, h2, ih f (by omega), List.replicate_succ]

/-- Folding the row writer of make_jedec over k copies of a row with a
set bit appends one *L line per row, at indices advancing by the row
length. -/
theorem fm_fold_true (r : List Bool) (hr : r.any (fun b => b) = true) :
    ∀ (k : Nat) (fb : FuseBuilder),
      ((List.replicate k r).foldl
          (fun fb row =>
            if row.any (fun b => b) then fb.add_iter row else fb.skip_iter row)
          fb).idx = fb.idx + k * r.length ∧
      ((List.replicate k r).foldl
          (fun fb row =>
            if row.any (fun b => b) then fb.add_iter row else fb.skip_iter row)
          fb).buf =
        fb.buf ++
          ((List.range k).map (fun i =>
            ascii "*L" ++ fmt_dec4 (fb.idx + i * r.length) ++ [32] ++
              r.map (fun b => if b then 49 else 48) ++ [10])).flatten := by
  intro k
  induction k with
  | zero => intro fb; exact ⟨by simp, by simp⟩
  | succ n ih =>
    intro fb
    obtain ⟨hidx, hbuf⟩ := ih fb
    have hmul : (n + 1) * r.length = n * r.length + r.length := by ring
    rw [List.replicate_succ', List.foldl_append]
    simp only [List.foldl_cons, List.foldl_nil, hr, if_pos]
    simp only [FuseBuilder.add_iter] at hidx hbuf ⊢
    constructor
    · rw [hidx]
      omega
    · rw [hbuf, hidx, List.range_succ, List.map_append, List.flatten_append]
      simp [List.append_assoc]

/-- Packing a byte-aligned prefix of eight explicit bits. -/
theorem pack_bytes_append8 (b0 b1 b2 b3 b4 b5 b6 b7 : Bool)
    (rest : List Bool) :
    pack_bytes ([b0, b1, b2, b3, b4, b5, b6, b7] ++ rest) =
      byte_val [b0, b1, b2, b3, b4, b5, b6, b7] :: pack_bytes rest := by
  simp only [List.cons_append, List.nil_append]
  simp only [pack_bytes]
  rfl

/-- Packing a constant block of 8 * k bits yields k constant bytes. -/
theorem pack_bytes_replicate (b : Bool) :
    ∀ (k : Nat) (rest : List Bool),
      pack_bytes (List.replicate (8 * k) b ++ rest) =
        List.replicate k (byte_val (List.replicate 8 b)) ++
          pack_bytes rest := by
  intro k
  induction k with
  | zero => intro rest; rfl
  | succ n ih =>
    intro rest
    have h8 : 8 * (n + 1) = 8 + 8 * n := by ring
    rw [h8, List.replicate_add, List.append_assoc]
    rw [show List.replicate 8 b = [b, b, b, b, b, b, b, b] from rfl]
    rw [pack_bytes_append8, ih, List.replicate_succ]
    rfl

/-- Packing the two-bit trailer of the GAL16V8 emission stream. -/
theorem pack_bytes_pair (a b : Bool) :
    pack_bytes [a, b] = [byte_val [a, b]] := by
  simp only [pack_bytes]
  rw [show (([a, b] : List Bool)).take 8 = [a, b] from rfl,
    show (([a, b] : List Bool)).drop 8 = [] from rfl]
  simp only [pack_bytes]

/-- The emission stream of the concrete c3 input, grouped into
byte-aligned constant blocks. -/
theorem c3_emission :
    emission_bits c3_input =
      List.replicate (8 * 256) true ++
        (List.replicate (8 * 1) false ++
          (List.replicate (8 * 8) false ++
            (List.replicate (8 * 1) true ++
              (List.replicate (8 * 8) true ++ [false, true])))) := by
  unfold emission_bits
  rw [if_neg (show ¬ c3_input.gal_type = Chip.GAL22V10 from by decide),
    if_pos (show c3_input.gal_type = Chip.GAL16V8 ∨
      c3_input.gal_type = Chip.GAL20V8 from by decide)]
  rw [show c3_input.gal_fuses = List.replicate 2048 true from rfl,
    show c3_input.gal_xor = List.replicate 8 false from rfl,
    show c3_input.gal_sig = List.replicate 64 false from rfl,
    show c3_input.gal_ac1 = List.replicate 8 true from rfl,
    show c3_input.gal_pt = List.replicate 64 true from rfl,
    show c3_input.gal_syn = false from rfl,
    show c3_input.gal_ac0 = true from rfl]
  rw [show (8 * 256 : Nat) = 2048 from by norm_num,
    show (8 * 1 : Nat) = 8 from by norm_num,
    show (8 * 8 : Nat) = 64 from by norm_num]
  simp only [List.append_assoc]

/-- Byte sum of the packed c3 emission stream. -/
theorem c3_pack_sum :
    list_sum (pack_bytes (emission_bits c3_input)) = 67577 := by
  rw [c3_emission, pack_bytes_replicate, pack_bytes_replicate,
    pack_bytes_replicate, pack_bytes_replicate, pack_bytes_replicate,
    pack_bytes_pair]
  rw [show byte_val (List.replicate 8 true) = 255 from by decide,
    show byte_val (List.replicate 8 false) = 0 from by decide,
    show byte_val [false, true] = 2 from by decide]
  simp only [list_sum_append, list_sum_replicate, list_sum_cons]
  norm_num [show list_sum ([] : List Nat) = 0 from rfl]

/-- The chunked fuse list of the c3 input: 64 full rows of 32 ones. -/
theorem c3_chunks :
    chunks_go (jedec_row_len c3_input.gal_type) c3_input.gal_fuses.length
        c3_input.gal_fuses =
      List.replicate 64 (List.replicate 32 true) := by
  have h := chunks_replicate 32 (by norm_num) true 64 2048 (by norm_num)
  norm_num at h
  rw [show jedec_row_len c3_input.gal_type = 32 from rfl,
    show c3_input.gal_fuses = List.replicate 2048 true from rfl,
    List.length_replicate]
  exact h

/-- Buffer of the fuse section of the c3 input: the 64 matrix lines
followed by the xor, sig, ac1, pt, syn and ac0 lines. -/
theorem c3_buf :
    (fuse_section c3_input).buf =
      ((List.range 64).map (fun i =>
          ascii "*L" ++ fmt_dec4 (i * 32) ++ [32] ++
            List.replicate 32 49 ++ [10])).flatten ++
        (ascii "*L" ++ fmt_dec4 2048 ++ [32] ++ List.replicate 8 48 ++ [10]) ++
        (ascii "*L" ++ fmt_dec4 2056 ++ [32] ++ List.replicate 64 48 ++ [10]) ++
        (ascii "*L" ++ fmt_dec4 2120 ++ [32] ++ List.replicate 8 49 ++ [10]) ++
        (ascii "*L" ++ fmt_dec4 2128 ++ [32] ++ List.replicate 64 49 ++ [10]) ++
        (ascii "*L" ++ fmt_dec4 2192 ++ [32] ++ [48] ++ [10]) ++
        (ascii "*L" ++ fmt_dec4 2193 ++ [32] ++ [49] ++ [10]) := by
  obtain ⟨hidx, hbuf⟩ :=
    fm_fold_true (List.replicate 32 true) (by decide) 64 FuseBuilder.new
  have hmfb : fuse_matrix_fb c3_input =
      (List.replicate 64 (List.replicate 32 true)).foldl
        (fun fb row =>
          if row.any (fun b => b) then fb.add_iter row else fb.skip_iter row)
        FuseBuilder.new := by
    rw [fuse_matrix_fb, c3_chunks]
  have hidx2 : (fuse_matrix_fb c3_input).idx = 2048 := by
    rw [hmfb, hidx]
    norm_num [FuseBuilder.new]
  have hbuf2 : (fuse_matrix_fb c3_input).buf =
      ((List.range 64).map (fun i =>
          ascii "*L" ++ fmt_dec4 (i * 32) ++ [32] ++
            List.replicate 32 49 ++ [10])).flatten := by
    rw [hmfb, hbuf]
    simp [FuseBuilder.new, List.map_replicate]
  have hxor : xor_fb c3_input (fuse_matrix_fb c3_input) =
      (fuse_matrix_fb c3_input).add_iter c3_input.gal_xor := by
    unfold xor_fb
    rw [if_pos (show c3_input.gal_type ≠ Chip.GAL22V10 from by decide)]
  have hfs : fuse_section c3_input =
      ((((((fuse_matrix_fb c3_input).add_iter c3_input.gal_xor).add_iter
          c3_input.gal_sig).add_iter c3_input.gal_ac1).add_iter
        c3_input.gal_pt).add_iter [c3_input.gal_syn]).add_iter
        [c3_input.gal_ac0] := by
    unfold fuse_section
    rw [hxor]
    rw [if_pos (show c3_input.gal_type = Chip.GAL16V8 ∨
      c3_input.gal_type = Chip.GAL20V8 from by decide)]
  rw [hfs]
  simp only [FuseBuilder.add_iter]
  rw [hbuf2, hidx2]
  rw [show c3_input.gal_xor = List.replicate 8 false from rfl,
    show c3_input.gal_sig = List.replicate 64 false from rfl,
    show c3_input.gal_ac1 = List.replicate 8 true from rfl,
    show c3_input.gal_pt = List.replicate 64 true from rfl,
    show c3_input.gal_syn = false from rfl,
    show c3_input.gal_ac0 = true from rfl]
  simp only [List.map_replicate, List.length_replicate, List.map_cons,
    List.map_nil, List.length_cons, List.length_nil]
  norm_num [List.append_assoc]

/-- Byte sum of the body of the c3 JEDEC file. -/
theorem c3_body_sum : list_sum (jedec_body c3_input) = 139677 := by
  rw [jedec_body_eq, c3_pack_sum, c3_buf]
  rw [show (67577 : Nat) % 65536 = 2041 from by norm_num]
  simp only [list_sum_append]
  rw [list_sum_flatten, List.map_map]
  rw [show list_sum ((List.range 64).map (list_sum ∘ fun i =>
      ascii "*L" ++ fmt_dec4 (i * 32) ++ [32] ++
        List.replicate 32 49 ++ [10])) = 123735 from by decide]
  norm_num [show list_sum (jedec_header c3_input) = 6239 from by decide,
    show list_sum (ascii "*L") = 118 from by decide,
    show list_sum (fmt_dec4 2048) = 206 from by decide,
    show list_sum (fmt_dec4 2056) = 205 from by decide,
    show list_sum (fmt_dec4 2120) = 197 from by decide,
    show list_sum (fmt_dec4 2128) = 205 from by decide,
    show list_sum (fmt_dec4 2192) = 206 from by decide,
    show list_sum (fmt_dec4 2193) = 207 from by decide,
    show list_sum (List.replicate 8 48) = 384 from by decide,
    show list_sum (List.replicate 64 48) = 3072 from by decide,
    show list_sum (List.replicate 8 49) = 392 from by decide,
    show list_sum (List.replicate 64 49) = 3136 from by decide,
    show list_sum (ascii "*C") = 109 from by decide,
    show list_sum (fmt_hex4 2041) = 262 from by decide,
    show list_sum (ascii "*\n") = 52 from by decide,
    show list_sum ([32] : List Nat) = 32 from rfl,
    show list_sum ([10] : List Nat) = 10 from rfl,
    show list_sum ([48] : List Nat) = 48 from rfl,
    show list_sum ([49] : List Nat) = 49 from rfl,
    show list_sum ([3] : List Nat) = 3 from rfl]

/-- Every character produced by toDigitsCore is one of the digit
characters of a value below the base, or comes from the accumulator. -/
theorem toDigitsCore_mem (fuel : Nat) :
    ∀ (n : Nat) (ds : List Char) (ch : Char),
      ch ∈ Nat.toDigitsCore 16 fuel n ds →
        ch ∈ ds ∨ ∃ d, d < 16 ∧ ch = Nat.digitChar d := by
  induction fuel with
  | zero => intro n ds ch h; exact .inl h
  | succ f ih =>
    intro n ds ch h
    rw [Nat.toDigitsCore] at h
    by_cases h0 : n / 16 = 0
    · rw [if_pos h0] at h
      rcases List.mem_cons.mp h with h | h
      · exact .inr ⟨n % 16, Nat.mod_lt _ (by norm_num), h⟩
      · exact .inl h
    · rw [if_neg h0] at h
      rcases ih (n / 16) (Nat.digitChar (n % 16) :: ds) ch h with h | h
      · rcases List.mem_cons.mp h with h | h
        · exact .inr ⟨n % 16, Nat.mod_lt _ (by norm_num), h⟩
        · exact .inl h
      · exact .inr h

/-- The {:04x} rendering never has fewer than 4 digits. -/
theorem fmt_hex4_min_length (n : Nat) : 4 ≤ (fmt_hex4 n).length := by
  unfold fmt_hex4 pad_zeros
  rw [List.length_map, List.length_append, List.length_replicate]
  omega

/-- Every byte of the {:04x} rendering is a decimal digit or a
lowercase hex letter. -/
theorem fmt_hex4_digits (n : Nat) :
    ∀ c ∈ fmt_hex4 n, (48 ≤ c ∧ c ≤ 57) ∨ (97 ≤ c ∧ c ≤ 102) := by
  intro c hc
  have hd : ∀ d, d < 16 →
      (48 ≤ (Nat.digitChar d).toNat ∧ (Nat.digitChar d).toNat ≤ 57) ∨
        (97 ≤ (Nat.digitChar d).toNat ∧ (Nat.digitChar d).toNat ≤ 102) := by
    decide
  unfold fmt_hex4 pad_zeros at hc
  rcases List.mem_map.mp hc with ⟨ch, hch, rfl⟩
  rcases List.mem_append.mp hch with hch | hch
  · rw [List.eq_of_mem_replicate hch]
    left
    constructor <;> decide
  · rw [Nat.toDigits] at hch
    rcases toDigitsCore_mem (n + 1) n [] ch hch with h | ⟨d, hd16, rfl⟩
    · exact absurd h (List.not_mem_nil ch)
    · exact hd d hd16

/-- C3 counterexample: on the concrete c3 GAL16V8 bit-state the body
bytes sum to 139677 > 0xffff, so the trailing checksum printed is the
five-digit 2219d — not the four-digit 16-bit wrapping sum 219d. -/
theorem galette_c3_counterexample :
    make_jedec c3_input =
      jedec_body c3_input ++ fmt_hex4 139677 ++ [10] ∧
    list_sum (jedec_body c3_input) = 139677 ∧
    fmt_hex4 139677 = [50, 50, 49, 57, 100] ∧
    (fmt_hex4 139677).length = 5 ∧
    fmt_hex4 (list_sum (jedec_body c3_input) % 65536) = [50, 49, 57, 100] ∧
    fmt_hex4 139677 ≠ fmt_hex4 (list_sum (jedec_body c3_input) % 65536) := by
  refine ⟨?_, c3_body_sum, by decide, by decide, ?_, ?_⟩
  · show jedec_body c3_input ++
        fmt_hex4 (list_sum (jedec_body c3_input) % 4294967296) ++ [10] = _
    rw [c3_body_sum]
  · rw [c3_body_sum]
    decide
  · rw [c3_body_sum]
    decide

/-- C3, amended: the trailing file checksum is the u32 (not 16-bit)
wrapping sum of every byte of the body before it, printed as at least
4 lowercase hex digits (more when the sum exceeds 0xffff) and a
newline. -/
theorem galette_c3_file_checksum (inp : JedecInput) :
    make_jedec inp =
      jedec_body inp ++
        fmt_hex4 (list_sum (jedec_body inp) % 4294967296) ++ [10] ∧
    4 ≤ (fmt_hex4 (list_sum (jedec_body inp) % 4294967296)).length ∧
    ∀ c ∈ fmt_hex4 (list_sum (jedec_body inp) % 4294967296),
      (48 ≤ c ∧ c ≤ 57) ∨ (97 ≤ c ∧ c ≤ 102) :=
  ⟨rfl, fmt_hex4_min_length _, fmt_hex4_digits _⟩

end Galette
